import Mathlib

/-
Verification of the hedgerow-planner pipeline (QGIS console scripts).

Shallow embedding of the three source files:
  * hedge-planting-along-line-species.py  (generator + policy-D species allocator)
  * hedge-planting-along-line.py          (legacy generator, fixed default angle)
  * hedgerow_planner/hedgerow_planner.py  (plugin variant of the legacy generator)

Modelling conventions:
  * QGIS geometry is an external oracle.  The scripts only call `geom.length()`
    and `geom.interpolate(d)`; a `Geom` carries the list of part lengths (the
    script iterates over `asMultiPolyline()` parts) and an `interpolate`
    function.  `geom.length()` is the total length of all parts.
  * All float arithmetic of the scripts (lengths, distances, percentages) is
    modelled in exact rational arithmetic `ℚ`; Python's `int()` truncation and
    `//`/`%` floor semantics are modelled on `ℤ` with `Int.fdiv`/`Int.fmod`.
  * The trigonometric evaluation `cos/sin(atan2 ...)` of the coordinate offset
    is not representable over `ℚ`; no claim refers to the numeric coordinate,
    so each generated position records instead the exact data from which the
    script computes its offset angle (the `OffsetDir` field): which two
    interpolated points feed `calculate_angle`, or the fixed default 90.
  * Randomness (`random.shuffle`, `random.randint`) is an injectable source,
    as the spec requires: an `Env` provides the shuffle results (constrained
    to be permutations in the theorems) and the stream of `randint` draws
    (constrained to lie in the requested interval).
  * The feature store (`point_layer`) is modelled by explicit state passing:
    each `setAttribute`/`updateFeature` pair appends an assignment record
    `Asg` to the state; `applyAsg` replays the (last) write for a feature id,
    which is observationally the in-place update the script performs.
-/

namespace Hedgerow

/-- The data from which the script computes the perpendicular-offset angle of
one position: either `calculate_angle a b + 90` for two interpolated points
`a`, `b`, or the legacy scripts' fixed default angle for the last position. -/
inductive OffsetDir where
  | fromPoints (a b : ℚ × ℚ)
  | fixedAngle (deg : ℚ)
deriving DecidableEq, Repr

/-- A planting position (one feature of the generated point layer).  Fields
`pid`, `ptype`, `species`, `row`, `gatter` mirror the layer attributes
`id`, `type`, `species`, `row`, `gatter`; `clusterId` mirrors `cluster_id`;
`dist` is the arc-length distance at which the position was interpolated and
`odir` the offset-direction data (see `OffsetDir`). -/
structure Pos where
  pid : ℕ
  row : ℕ
  gatter : ℕ
  dist : ℚ
  odir : OffsetDir
  species : Option String
  ptype : String
  clusterId : ℕ
deriving DecidableEq, Repr

/-- The geometry oracle of one input line feature.  The scripts read only the
part structure (`asMultiPolyline`, used solely for its number of parts: the
loop variable `line` is never used), the total length `geom.length()` and the
interpolation oracle `geom.interpolate(d)`. -/
structure Geom where
  partLengths : List ℚ
  interpolate : ℚ → ℚ × ℚ

/-- QGIS `geom.length()`: total length over all parts of the geometry. -/
def Geom.length (g : Geom) : ℚ := g.partLengths.sum

/-- Number of iterations of `while distance < line_length` when `distance`
starts at 0 and is incremented by `plant_spacing` each round. -/
def numSteps (L s : ℚ) : ℕ := ⌈L / s⌉₊

/-- One position of the species-variant generator
(hedge-planting-along-line-species.py, lines 52-76), as a function of the
current `id_counter` value and the current `distance`:
  * offset angle from `interpolate(distance)` and
    `interpolate(distance + plant_spacing)` when
    `distance + plant_spacing < line_length`, else from
    `interpolate(distance - plant_spacing)` and `interpolate(distance)`;
  * `type` is `"shrub"` on rows 0 and `rows - 1`, else `"unassigned"`. -/
def mkGenPos (g : Geom) (s : ℚ) (rows row gatter : ℕ) (idc : ℕ) (d : ℚ) : Pos :=
  { pid := idc
    row := row
    gatter := gatter
    dist := d
    odir :=
      if d + s < g.length then
        .fromPoints (g.interpolate d) (g.interpolate (d + s))
      else
        .fromPoints (g.interpolate (d - s)) (g.interpolate d)
    species := none
    ptype := if row = 0 ∨ row = rows - 1 then "shrub" else "unassigned"
    clusterId := 0 }

/-- The `while distance < line_length` loop of the species-variant generator
for one row.  `fuel` bounds the number of iterations; callers pass
`numSteps g.length s`, which is exactly the number of interations the Python
loop performs. -/
def genRowLoop (g : Geom) (s : ℚ) (rows row gatter : ℕ) :
    ℕ → ℚ → ℕ → List Pos
  | 0, _, _ => []
  | fuel + 1, d, idc =>
    if d < g.length then
      mkGenPos g s rows row gatter idc d ::
        genRowLoop g s rows row gatter fuel (d + s) (idc + 1)
    else []

/-- The `for row in range(rows)` loop of the species-variant generator.
`id_counter` advances by one per emitted position, i.e. by the length of the
emitted block between rows. -/
def genRowsFold (g : Geom) (s : ℚ) (rows gatter : ℕ) :
    List ℕ → ℕ → List Pos
  | [], _ => []
  | r :: rs, idc =>
    let out := genRowLoop g s rows r gatter (numSteps g.length s) 0 idc
    out ++ genRowsFold g s rows gatter rs (idc + out.length)

/-- The `for line in lines` loop of the species-variant generator.  The body
never uses the part itself: it recomputes `line_length = geom.length()` (the
whole geometry's length) and interpolates along the whole geometry, so the
loop only contributes its iteration count, one full block of rows per part.
`gatter_counter` is incremented at the end of each part iteration (the
`gatter_counter += 1` statement sits inside the `for line in lines:` loop). -/
def genPartsFold (g : Geom) (s : ℚ) (rows : ℕ) :
    ℕ → ℕ → ℕ → List Pos
  | 0, _, _ => []
  | n + 1, idc, gc =>
    let out := genRowsFold g s rows gc (List.range rows) idc
    out ++ genPartsFold g s rows n (idc + out.length) (gc + 1)

/-- The `for feature in line_layer.getFeatures()` loop of the species-variant
generator, threading `id_counter` and `gatter_counter` across features. -/
def genFeatsFold (s : ℚ) (rows : ℕ) : List Geom → ℕ → ℕ → List Pos
  | [], _, _ => []
  | g :: gs, idc, gc =>
    let out := genPartsFold g s rows g.partLengths.length idc gc
    out ++ genFeatsFold s rows gs (idc + out.length) (gc + g.partLengths.length)

/-- `generate_points` of hedge-planting-along-line-species.py: emit the
position lattice for all features.  `id_counter` and `gatter_counter` both
start at 1.  `rowSpacing` only scales the numeric coordinate offset and is
carried for completeness. -/
def generate_points (feats : List Geom) (rows : ℕ) (_rowSpacing plantSpacing : ℚ) :
    List Pos :=
  genFeatsFold plantSpacing rows feats 1 1

/-- Count of generated positions predicted by the spec's sentence (§8):
sum over (polyline part, row) pairs of `floor(partLength/plantSpacing) + 1`.
This definition follows the spec's words, for comparison with the source. -/
def specPredictedCount (feats : List Geom) (rows : ℕ) (s : ℚ) : ℕ :=
  (feats.map fun g =>
    (g.partLengths.map fun L => (⌊L / s⌋.toNat + 1) * rows).sum).sum

/-! ### Legacy generator (hedge-planting-along-line.py and the plugin's
`HedgerowPlanner.generate_points`, which are line-for-line identical in the
loop body).  Differences from the species variant: the layer only has `id`
and `type` attributes (`type` is the constant string `"Type"`), there is no
`gatter` counter, and the final position of a part falls back to the fixed
default angle `offset_angle = 90`. -/

/-- One position of the legacy generators as a function of `id_counter` and
`distance`: same forward lookahead, but `offset_angle = 90` (fixed default)
when `distance + plant_spacing < line_length` fails. -/
def mkLegacyPos (g : Geom) (s : ℚ) (idc : ℕ) (d : ℚ) : Pos :=
  { pid := idc
    row := 0
    gatter := 0
    dist := d
    odir :=
      if d + s < g.length then
        .fromPoints (g.interpolate d) (g.interpolate (d + s))
      else
        .fixedAngle 90
    species := none
    ptype := "Type"
    clusterId := 0 }

/-- The `while distance < line_length` loop of the legacy generators. -/
def legacyGenRowLoop (g : Geom) (s : ℚ) : ℕ → ℚ → ℕ → List Pos
  | 0, _, _ => []
  | fuel + 1, d, idc =>
    if d < g.length then
      mkLegacyPos g s idc d :: legacyGenRowLoop g s fuel (d + s) (idc + 1)
    else []

/-- Rows loop of the legacy generators (row index only scales the offset). -/
def legacyGenRowsFold (g : Geom) (s : ℚ) : List ℕ → ℕ → List Pos
  | [], _ => []
  | _ :: rs, idc =>
    let out := legacyGenRowLoop g s (numSteps g.length s) 0 idc
    out ++ legacyGenRowsFold g s rs (idc + out.length)

/-- Parts loop of the legacy generators (again the part itself is unused). -/
def legacyGenPartsFold (g : Geom) (s : ℚ) (rows : ℕ) : ℕ → ℕ → List Pos
  | 0, _ => []
  | n + 1, idc =>
    let out := legacyGenRowsFold g s (List.range rows) idc
    out ++ legacyGenPartsFold g s rows n (idc + out.length)

/-- Features loop of the legacy generators, threading `id_counter`. -/
def legacyGenFeatsFold (s : ℚ) (rows : ℕ) : List Geom → ℕ → List Pos
  | [], _ => []
  | g :: gs, idc =>
    let out := legacyGenPartsFold g s rows g.partLengths.length idc
    out ++ legacyGenFeatsFold s rows gs (idc + out.length)

/-- `generate_points` of the two legacy scripts. -/
def legacy_generate_points (feats : List Geom) (rows : ℕ)
    (_rowSpacing plantSpacing : ℚ) : List Pos :=
  legacyGenFeatsFold plantSpacing rows feats 1

/-! ### Species allocator, policy D
(`attribute_species_to_points_with_clusters`, lines 83-186). -/

/-- One entry of the `species_distribution` catalog: a dict with keys
`"species"` and `"type"` (the latter the string `"tree"` or `"shrub"`). -/
structure SpeciesEntry where
  species : String
  stype : String
deriving DecidableEq, Repr

/-- `tree_species`: names of catalog entries whose type is `"tree"`. -/
def treeSpeciesOf (dist : List SpeciesEntry) : List String :=
  (dist.filter fun e => e.stype = "tree").map (·.species)

/-- `shrub_species`: names of catalog entries whose type is `"shrub"`. -/
def shrubSpeciesOf (dist : List SpeciesEntry) : List String :=
  (dist.filter fun e => e.stype = "shrub").map (·.species)

/-- Python `int()`: truncation toward zero. -/
def pyInt (x : ℚ) : ℤ := if 0 ≤ x then ⌊x⌋ else ⌈x⌉

/-- The single runtime error the function can raise before committing edits:
an unguarded integer division by zero (`ZeroDivisionError`). -/
inductive AllocErr where
  | zeroDivision
deriving DecidableEq, Repr

/-- Pool construction, lines 95-96:
`[species for species in L for _ in range(quota // len(L) + 1)]`.
The `range` expression is evaluated once per element of `L`, so an empty `L`
yields `[]` without the division `quota // len(L)` ever being evaluated (no
`ZeroDivisionError` here); `//` is floor division (`Int.fdiv`) and `range n`
is empty for `n ≤ 0`. -/
def buildPool (speciesL : List String) (quota : ℤ) : List String :=
  speciesL.flatMap fun sp =>
    List.replicate (quota.fdiv speciesL.length + 1).toNat sp

/-- The injectable random source (spec §5 requires randomness to be injected).
`shuffleTrees`/`shuffleShrubs` model the two `random.shuffle` calls on the
pools; `shuffleRow` models the per-row `random.shuffle(row_points)` calls
(their argument lists are pairwise disjoint under the theorems' no-duplicate
hypothesis, so one function per call site loses no generality); `randint lo
hi k` is the value of the k-th `random.randint(lo, hi)` draw of the run. -/
structure Env where
  shuffleTrees : List String → List String
  shuffleShrubs : List String → List String
  shuffleRow : List ℕ → List ℕ
  randint : ℕ → ℕ → ℕ → ℕ

/-- Every shuffle result is a permutation of its input (what `random.shuffle`
guarantees). -/
def EnvPerm (e : Env) : Prop :=
  (∀ l, (e.shuffleTrees l).Perm l) ∧ (∀ l, (e.shuffleShrubs l).Perm l) ∧
    (∀ l, (e.shuffleRow l).Perm l)

/-- Every `randint lo hi` draw lies in `[lo, hi]` (what `random.randint`
guarantees when `lo ≤ hi`). -/
def RandintOk (e : Env) : Prop :=
  ∀ lo hi k, lo ≤ hi → lo ≤ e.randint lo hi k ∧ e.randint lo hi k ≤ hi

/-- One committed attribute write: `setAttribute('species', ...)`,
`setAttribute('type', ...)`, `setAttribute('cluster_id', ...)` followed by
`updateFeature` on the feature with id `pid`. -/
structure Asg where
  pid : ℕ
  species : String
  ptype : String
  clusterId : ℕ
deriving DecidableEq, Repr

/-- Cyclic pool indexing `l[n % len(l)]` for a non-empty pool, where `getD`
is genuine list indexing.  On an empty pool Python raises `ZeroDivisionError`
(`n % 0`) at the two call sites, lines 120 and 155; the run-level function
below reports exactly the runs that reach one of those evaluations with an
empty pool (a shrub cluster opened with an empty shrub pool, or a tree
written with an empty tree pool) as `.error .zeroDivision`, so the
placeholder value returned here on `[]` never reaches a committed result. -/
def cyc (l : List String) (n : ℕ) : String := l.getD (n % l.length) ""

/-- The mutable state of the allocation run: the `nonlocal` counters
`shrub_count` / `tree_count` / `global_cluster_id`, the index `rix` of the
next `randint` draw, and the writes committed so far. -/
structure AllocSt where
  shrubCount : ℕ
  treeCount : ℕ
  clusterId : ℕ
  rix : ℕ
  asg : List Asg
deriving Repr

/-- Static configuration shared by the loops of one allocator run. -/
structure Cfg where
  env : Env
  minC : ℕ
  maxC : ℕ
  treeList : List String
  shrubList : List String
  tpc : ℤ
  rows : ℕ

/-- `assign_shrub_cluster(points, start_index)`, lines 117-129:
`cluster_size = min(randint(min_cluster_size, max_cluster_size),
len(points) - start_index)`; all positions `points[start_index ..
start_index + cluster_size)` get the species `shrub_list[shrub_count %
len(shrub_list)]` (chosen with the entry value of `shrub_count`), type
`"shrub"` and the current `global_cluster_id`; `shrub_count` grows by one per
written position and `global_cluster_id` by one.  Returns `cluster_size`. -/
def assign_shrub_cluster (c : Cfg) (points : List ℕ) (i : ℕ) (st : AllocSt) :
    ℕ × AllocSt :=
  let size := min (c.env.randint c.minC c.maxC st.rix) (points.length - i)
  let sp := cyc c.shrubList st.shrubCount
  (size,
    { shrubCount := st.shrubCount + size
      treeCount := st.treeCount
      clusterId := st.clusterId + 1
      rix := st.rix + 1
      asg := st.asg ++
        ((points.drop i).take size).map fun pid =>
          { pid := pid, species := sp, ptype := "shrub",
            clusterId := st.clusterId } })

/-- The `while i < len(row_points)` loop (lines 147-165) for one row of one
gatter.  `gtc` is the enclosing gatter's `gatter_tree_count`.  Shrub clusters
are assigned on edge rows, once the global tree quota `tree_points_count` is
reached, or once the gatter's tree count is exhausted; otherwise the position
at index `i` receives one tree.  `fuel` bounds the iteration count; callers
pass `points.length`, which suffices because every iteration advances `i` by
at least one when the cluster sizes are positive. -/
def assignRowLoop (c : Cfg) (row : ℕ) (points : List ℕ) :
    ℕ → ℕ → ℤ → AllocSt → ℤ × AllocSt
  | 0, _, gtc, st => (gtc, st)
  | fuel + 1, i, gtc, st =>
    if i < points.length then
      if row = 0 ∨ row = c.rows - 1 ∨ c.tpc ≤ (st.treeCount : ℤ) then
        let r := assign_shrub_cluster c points i st
        assignRowLoop c row points fuel (i + r.1) gtc r.2
      else if 0 < gtc then
        let st' :=
          { st with
            treeCount := st.treeCount + 1
            asg := st.asg ++
              [{ pid := points.getD i 0, species := cyc c.treeList st.treeCount,
                 ptype := "tree", clusterId := 0 }] }
        assignRowLoop c row points fuel (i + 1) (gtc - 1) st'
      else
        let r := assign_shrub_cluster c points i st
        assignRowLoop c row points fuel (i + r.1) gtc r.2
    else (gtc, st)

/-- The ids of the positions of gatter `g` and row `r`, in layer order:
`gatter_groups[g]` filtered through `points_by_row[r]`. -/
def pidsOfGatterRow (ps : List Pos) (g r : ℕ) : List ℕ :=
  ((ps.filter fun p => p.gatter = g).filter fun p => p.row = r).map (·.pid)

/-- The `for row in range(rows)` loop (lines 143-165) of one gatter: each
row's id list is shuffled and consumed by `assignRowLoop`. -/
def assignRowsFold (c : Cfg) (byRow : ℕ → List ℕ) :
    List ℕ → ℤ → AllocSt → ℤ × AllocSt
  | [], gtc, st => (gtc, st)
  | r :: rs, gtc, st =>
    let pts := c.env.shuffleRow (byRow r)
    let res := assignRowLoop c r pts pts.length 0 gtc st
    assignRowsFold c byRow rs res.1 res.2

/-- Fuel-driven worker for `firstOccs`: with fuel at least the length of the
list it removes later duplicates.  Structural recursion on the fuel keeps the
function kernel-reducible. -/
def firstOccsAux : ℕ → List ℕ → List ℕ
  | 0, _ => []
  | _ + 1, [] => []
  | n + 1, x :: xs => x :: firstOccsAux n (xs.filter fun y => y ≠ x)

/-- First occurrences of the values of a list, in order: the key order of a
Python dict built by repeated `setdefault` insertion. -/
def firstOccs (l : List ℕ) : List ℕ := firstOccsAux l.length l

/-- The `for gatter_id, point_ids in gatter_groups.items()` loop (lines
131-165): per gatter, `gatter_tree_count = trees_per_gatter + (1 if
extra_trees > 0 else 0)` and `extra_trees = max(0, extra_trees - 1)`, then
the rows loop runs. -/
def assignGattersFold (c : Cfg) (ps : List Pos) (tpg : ℤ) :
    List ℕ → ℤ → AllocSt → AllocSt
  | [], _, st => st
  | g :: gs, extra, st =>
    let gtc := tpg + (if 0 < extra then 1 else 0)
    let extra' := max 0 (extra - 1)
    let res := assignRowsFold c (pidsOfGatterRow ps g) (List.range c.rows) gtc st
    assignGattersFold c ps tpg gs extra' res.2

/-- `attribute_species_to_points_with_clusters` (lines 83-167), returning the
list of committed attribute writes.  Quotas: `tree_points_count =
int(total_points * (tree_percentage / 100))`, `shrub_points_count =
total_points - tree_points_count`.  `shrub_percentage` is accepted but unused
by the source.  An empty species list makes its pool empty (lines 95-96)
without any error; the unguarded divisions actually reached are
`tree_points_count // gatter_count` (line 112), raising `ZeroDivisionError`
when the layer has no features, and the pool indexings
`shrub_list[shrub_count % len(shrub_list)]` (line 120, evaluated once per
`assign_shrub_cluster` call) and `tree_list[tree_count % len(tree_list)]`
(line 155, evaluated once per tree write), each raising `ZeroDivisionError`
at its first evaluation with an empty pool.  Such an exception aborts the
run before `commitChanges` (line 167), so no writes are committed; since the
run agrees with the total loop up to that first evaluation, the aborting
runs are exactly those whose total loop opens a shrub cluster
(`clusterId ≠ 1`) with an empty shrub pool or writes a tree
(`treeCount ≠ 0`) with an empty tree pool. -/
def attribute_species_to_points_with_clusters (e : Env) (ps : List Pos)
    (dist : List SpeciesEntry) (treePct _shrubPct : ℚ) (rows minC maxC : ℕ) :
    Except AllocErr (List Asg) :=
  let total := ps.length
  let tpc : ℤ := pyInt ((total : ℚ) * (treePct / 100))
  let spc : ℤ := (total : ℤ) - tpc
  let treeL0 := buildPool (treeSpeciesOf dist) tpc
  let shrubL0 := buildPool (shrubSpeciesOf dist) spc
  let gatters := firstOccs (ps.map (·.gatter))
  if gatters.length = 0 then .error .zeroDivision
  else
    let tpg : ℤ := tpc.fdiv gatters.length
    let extra : ℤ := tpc.fmod gatters.length
    let c : Cfg :=
      { env := e, minC := minC, maxC := maxC,
        treeList := e.shuffleTrees treeL0,
        shrubList := e.shuffleShrubs shrubL0,
        tpc := tpc, rows := rows }
    let res := assignGattersFold c ps tpg gatters extra
      { shrubCount := 0, treeCount := 0, clusterId := 1, rix := 0,
        asg := [] }
    if c.shrubList.length = 0 ∧ res.clusterId ≠ 1 then .error .zeroDivision
    else if c.treeList.length = 0 ∧ res.treeCount ≠ 0 then
      .error .zeroDivision
    else .ok res.asg

/-- Replay the committed writes on one position: the last write for its
feature id wins (each id is written at most once in the runs covered by the
theorems, but sequential update semantics is last-write-wins). -/
def applyAsg (asgs : List Asg) (p : Pos) : Pos :=
  match (asgs.filter fun a => a.pid = p.pid).getLast? with
  | some a =>
    { p with species := some a.species, ptype := a.ptype,
             clusterId := a.clusterId }
  | none => p

/-- The point collection after the allocator's edits are committed. -/
def applyAsgs (asgs : List Asg) (ps : List Pos) : List Pos :=
  ps.map (applyAsg asgs)

/-- Number of writes of a given type in a trace. -/
def countType (asgs : List Asg) (t : String) : ℕ :=
  (asgs.filter fun a => a.ptype = t).length

/-- Number of positions a given cluster id received. -/
def clusterSize (asgs : List Asg) (cid : ℕ) : ℕ :=
  (asgs.filter fun a => a.clusterId = cid).length

/-- The per-gatter tree share of policy D for the k-th gatter processed
(0-indexed): `trees_per_gatter` plus one extra tree for the first
`extra_trees` gatters. -/
def shareOf (tpc : ℤ) (gc : ℕ) (k : ℕ) : ℤ :=
  tpc.fdiv gc + (if (k : ℤ) < tpc.fmod gc then 1 else 0)

/-- Total capacity of the inner rows of gatter `g`: the number of its
positions lying on rows `1 .. rows - 2`. -/
def innerCap (ps : List Pos) (rows g : ℕ) : ℕ :=
  ((List.range rows).map fun r =>
    if r = 0 ∨ r = rows - 1 then 0 else (pidsOfGatterRow ps g r).length).sum

/-! ### Deterministic species colors (`random_color_for_species`,
lines 188-191). -/

/-- The ambient facts one interpreter process contributes to
`random_color_for_species`: `strHash` is Python's built-in `hash` on strings
(salted per process via `PYTHONHASHSEED`, so different runs may carry
different functions), and `seededDraws h` is the triple of `randint(0, 255)`
draws produced by the Mersenne Twister right after `random.seed(h)` (a fixed
deterministic function of the seed, identical in every run). -/
structure ColorEnv where
  strHash : String → ℤ
  seededDraws : ℤ → ℕ × ℕ × ℕ

/-- `random_color_for_species`: seed the global PRNG with `hash(name)` and
draw the three color channels. -/
def random_color_for_species (e : ColorEnv) (name : String) : ℕ × ℕ × ℕ :=
  e.seededDraws (e.strHash name)

/-! ### Concrete instances used by counterexamples and witnesses. -/

/-- A geometry with two parts of lengths 5/2 and 7/2 along the x-axis. -/
def geomC4 : Geom := { partLengths := [(5 : ℚ)/2, 7/2], interpolate := fun d => (d, 0) }

/-- A geometry with one part of length 2 along the y-axis. -/
def geomC5 : Geom := { partLengths := [(2 : ℚ)], interpolate := fun d => (0, d) }

/-- A geometry with two parts of length 1 each. -/
def geomTwoParts : Geom := { partLengths := [(1 : ℚ), 1], interpolate := fun d => (d, 0) }

/-- A concrete admissible random source: shuffles leave lists unchanged and
every `randint lo hi` draw returns `lo`. -/
def envEx : Env :=
  { shuffleTrees := id, shuffleShrubs := id, shuffleRow := id,
    randint := fun lo _ _ => lo }

/-- A freshly generated position (species `None`, cluster 0) as the lattice
generator creates it. -/
def mkP (pid row gatter : ℕ) : Pos :=
  { pid := pid, row := row, gatter := gatter, dist := 0,
    odir := .fromPoints (0, 0) (0, 0), species := none,
    ptype := if row = 0 then "shrub" else "unassigned", clusterId := 0 }

/-- A two-entry catalog with one tree and one shrub species. -/
def distEx : List SpeciesEntry :=
  [{ species := "Quercus robur", stype := "tree" },
   { species := "Rosa canina", stype := "shrub" }]

/-- Catalog with no tree species. -/
def distNoTrees : List SpeciesEntry :=
  [{ species := "Rosa canina", stype := "shrub" }]

/-- Catalog with no shrub species. -/
def distNoShrubs : List SpeciesEntry :=
  [{ species := "Quercus robur", stype := "tree" }]

/-- Six positions in one gatter over three rows (rows 0 and 2 are edges). -/
def psEx : List Pos :=
  [mkP 1 0 1, mkP 2 0 1, mkP 3 1 1, mkP 4 1 1, mkP 5 2 1, mkP 6 2 1]

/-- Four positions in one gatter over two rows; with `rows = 2` both rows are
edge rows, so the gatter has no inner-row capacity at all. -/
def psC3 : List Pos := [mkP 1 0 1, mkP 2 0 1, mkP 3 1 1, mkP 4 1 1]

/-! ### Derived definitions used by the allocator lemmas. -/

/-- Validity of the configuration of one allocator run: positive cluster
bounds and in-range `randint` draws. -/
def CfgOk (c : Cfg) : Prop :=
  1 ≤ c.minC ∧ c.minC ≤ c.maxC ∧ RandintOk c.env

/-- Invariant tying the cluster-id counter to the committed writes: ids of
shrub clusters committed so far are exactly `1 .. clusterId - 1` (trees use
cluster id 0), and each committed cluster's size already lies in
`[1, maxClusterSize]`. -/
def ClustersOk (c : Cfg) (st : AllocSt) : Prop :=
  1 ≤ st.clusterId ∧ (∀ a ∈ st.asg, a.clusterId < st.clusterId) ∧
    ∀ j, 1 ≤ j → j < st.clusterId →
      1 ≤ clusterSize st.asg j ∧ clusterSize st.asg j ≤ c.maxC

/-- Combined length of the shuffled inner-row lists among the rows `rl`. -/
def innerLenSum (c : Cfg) (byRow : ℕ → List ℕ) (rl : List ℕ) : ℕ :=
  (rl.map fun r =>
    if r = 0 ∨ r = c.rows - 1 then 0 else (c.env.shuffleRow (byRow r)).length).sum

/-- Total of the per-gatter tree shares of the first `n` gatters when the
remainder distribution starts with `extra` extra trees. -/
def sharesSum (tpg extra : ℤ) (n : ℕ) : ℤ :=
  (List.map (fun k : ℕ => tpg + (if (k : ℤ) < extra then (1 : ℤ) else 0))
    (List.range n)).sum

/-- `tree_points_count = int(total_points * (tree_percentage / 100))`. -/
def tpcOf (ps : List Pos) (treePct : ℚ) : ℤ :=
  pyInt ((ps.length : ℚ) * (treePct / 100))

/-- The gatter ids in dict insertion order (`gatter_groups` key order). -/
def gattersOf (ps : List Pos) : List ℕ := firstOccs (ps.map (·.gatter))

/-- The configuration of a successful run: shuffled tree and shrub pools and
the quota/rows parameters. -/
def cfgOf (e : Env) (ps : List Pos) (dist : List SpeciesEntry) (treePct : ℚ)
    (rows minC maxC : ℕ) : Cfg :=
  { env := e, minC := minC, maxC := maxC
    treeList := e.shuffleTrees (buildPool (treeSpeciesOf dist)
      (tpcOf ps treePct))
    shrubList := e.shuffleShrubs (buildPool (shrubSpeciesOf dist)
      ((ps.length : ℤ) - tpcOf ps treePct))
    tpc := tpcOf ps treePct
    rows := rows }

/-- A concrete configuration for witnesses: the identity shuffles, draws
pinned to the lower bound, singleton pools, quota 1, three rows. -/
def cfgEx : Cfg :=
  { env := envEx, minC := 3, maxC := 5, treeList := ["Quercus robur"],
    shrubList := ["Rosa canina"], tpc := 1, rows := 3 }

/-- The allocator's initial state. -/
def st0Ex : AllocSt :=
  { shrubCount := 0, treeCount := 0, clusterId := 1, rix := 0, asg := [] }

/-- The trace of the run `attribute_species_to_points_with_clusters envEx
psEx distEx 30 70 3 3 5` (checked by `rfl` below): row 0 is a shrub cluster
of two, row 1 plants the single tree of the quota and closes with a
one-position cluster, row 2 is a shrub cluster of two. -/
def asgsEx : List Asg :=
  [{ pid := 1, species := "Rosa canina", ptype := "shrub", clusterId := 1 },
   { pid := 2, species := "Rosa canina", ptype := "shrub", clusterId := 1 },
   { pid := 3, species := "Quercus robur", ptype := "tree", clusterId := 0 },
   { pid := 4, species := "Rosa canina", ptype := "shrub", clusterId := 2 },
   { pid := 5, species := "Rosa canina", ptype := "shrub", clusterId := 3 },
   { pid := 6, species := "Rosa canina", ptype := "shrub", clusterId := 3 }]

/-- The trace of the run `attribute_species_to_points_with_clusters envEx
psC3 distEx 50 50 2 3 5` (checked by `rfl` below): with `rows = 2` both rows
are edge rows, so all four positions become shrub clusters and no tree is
ever planted although the quota is 2. -/
def asgsC3 : List Asg :=
  [{ pid := 1, species := "Rosa canina", ptype := "shrub", clusterId := 1 },
   { pid := 2, species := "Rosa canina", ptype := "shrub", clusterId := 1 },
   { pid := 3, species := "Rosa canina", ptype := "shrub", clusterId := 2 },
   { pid := 4, species := "Rosa canina", ptype := "shrub", clusterId := 2 }]

/-! ### Characterization of the generator's row loop. -/

theorem ceil_step {s d L : ℚ} (hs : 0 < s) (hdL : d < L) :
    ⌈(L - d) / s⌉₊ = ⌈(L - (d + s)) / s⌉₊ + 1 := by
  have hx : (L - d) / s = (L - (d + s)) / s + 1 := by
    field_simp
    ring
  rcases le_or_lt 0 ((L - (d + s)) / s) with h0 | h0
  · rw [hx, Nat.ceil_add_one h0]
  · have hceil0 : ⌈(L - (d + s)) / s⌉₊ = 0 := Nat.ceil_eq_zero.mpr h0.le
    have hgt : (0 : ℚ) < (L - (d + s)) / s + 1 := by
      have hm1 : (-1 : ℚ) < (L - (d + s)) / s := by
        rw [lt_div_iff₀ hs]
        linarith
      linarith
    have hle : (L - (d + s)) / s + 1 ≤ 1 := by linarith
    have h1 : ⌈(L - (d + s)) / s + 1⌉₊ ≤ 1 := Nat.ceil_le.mpr (by exact_mod_cast hle)
    have h2 : 0 < ⌈(L - (d + s)) / s + 1⌉₊ := Nat.ceil_pos.mpr hgt
    rw [hx, hceil0]
    omega

theorem genRowLoop_eq (g : Geom) (s : ℚ) (rows row gatter : ℕ) (hs : 0 < s) :
    ∀ (fuel : ℕ) (d : ℚ) (idc : ℕ), ⌈(g.length - d) / s⌉₊ ≤ fuel →
      genRowLoop g s rows row gatter fuel d idc =
        (List.range ⌈(g.length - d) / s⌉₊).map
          (fun j => mkGenPos g s rows row gatter (idc + j) (d + j * s)) := by
  intro fuel
  induction fuel with
  | zero =>
    intro d idc hfuel
    have h0 : ⌈(g.length - d) / s⌉₊ = 0 := Nat.le_zero.mp hfuel
    simp [genRowLoop, h0]
  | succ fuel ih =>
    intro d idc hfuel
    by_cases hdL : d < g.length
    · have hstep := ceil_step hs hdL
      rw [genRowLoop, if_pos hdL, hstep, List.range_succ_eq_map, List.map_cons,
        List.map_map]
      have hhead : mkGenPos g s rows row gatter (idc + 0) (d + (0 : ℕ) * s) =
          mkGenPos g s rows row gatter idc d := by
        norm_num
      rw [hhead]
      have htail := ih (d + s) (idc + 1) (by omega)
      rw [htail]
      congr 1
      apply List.map_congr_left
      intro j _
      show mkGenPos g s rows row gatter (idc + 1 + j) (d + s + j * s) =
        mkGenPos g s rows row gatter (idc + (j + 1)) (d + (j + 1 : ℕ) * s)
      congr 1
      · omega
      · push_cast
        ring
    · have hL : g.length ≤ d := le_of_not_lt hdL
      have h0 : ⌈(g.length - d) / s⌉₊ = 0 := by
        apply Nat.ceil_eq_zero.mpr
        apply div_nonpos_of_nonpos_of_nonneg <;> linarith
      rw [genRowLoop, if_neg hdL, h0]
      simp

/-- The generator's row loop visits the distances `0, s, 2s, ...` strictly
below `geom.length()`, and emits `⌈length/s⌉` positions. -/
theorem genRowLoop_dists (g : Geom) (s : ℚ) (rows row gatter idc : ℕ)
    (hs : 0 < s) :
    (genRowLoop g s rows row gatter (numSteps g.length s) 0 idc).map Pos.dist =
      List.map (fun j : ℕ => (j : ℚ) * s) (List.range (numSteps g.length s)) := by
  have h := genRowLoop_eq g s rows row gatter hs (numSteps g.length s) 0 idc
    (by simp [numSteps])
  rw [show ⌈(g.length - 0) / s⌉₊ = numSteps g.length s by simp [numSteps]] at h
  rw [h, List.map_map]
  apply List.map_congr_left
  intro j _
  show (mkGenPos g s rows row gatter (idc + j) (0 + j * s)).dist = (j : ℚ) * s
  simp [mkGenPos]

/-! ### Membership lemmas threading positions back to the row loop. -/

theorem mem_genRowLoop (g : Geom) (s : ℚ) (rows row gatter : ℕ) :
    ∀ (fuel : ℕ) (d : ℚ) (idc : ℕ) (p : Pos),
      p ∈ genRowLoop g s rows row gatter fuel d idc →
      ∃ idc' d', p = mkGenPos g s rows row gatter idc' d' := by
  intro fuel
  induction fuel with
  | zero => intro d idc p hp; simp [genRowLoop] at hp
  | succ fuel ih =>
    intro d idc p hp
    rw [genRowLoop] at hp
    by_cases hdL : d < g.length
    · rw [if_pos hdL] at hp
      rcases List.mem_cons.mp hp with h | h
      · exact ⟨idc, d, h⟩
      · exact ih (d + s) (idc + 1) p h
    · rw [if_neg hdL] at hp
      simp at hp

theorem mem_genRowsFold (g : Geom) (s : ℚ) (rows gatter : ℕ) :
    ∀ (rl : List ℕ) (idc : ℕ) (p : Pos), p ∈ genRowsFold g s rows gatter rl idc →
      ∃ r fuel d idc', p ∈ genRowLoop g s rows r gatter fuel d idc' := by
  intro rl
  induction rl with
  | nil => intro idc p hp; simp [genRowsFold] at hp
  | cons r rs ih =>
    intro idc p hp
    rw [genRowsFold] at hp
    rcases List.mem_append.mp hp with h | h
    · exact ⟨r, _, _, _, h⟩
    · exact ih _ p h

theorem mem_genPartsFold (g : Geom) (s : ℚ) (rows : ℕ) :
    ∀ (n idc gc : ℕ) (p : Pos), p ∈ genPartsFold g s rows n idc gc →
      ∃ r fuel d idc' gatter, p ∈ genRowLoop g s rows r gatter fuel d idc' := by
  intro n
  induction n with
  | zero => intro idc gc p hp; simp [genPartsFold] at hp
  | succ n ih =>
    intro idc gc p hp
    rw [genPartsFold] at hp
    rcases List.mem_append.mp hp with h | h
    · obtain ⟨r, fuel, d, idc', hmem⟩ := mem_genRowsFold g s rows gc _ _ p h
      exact ⟨r, fuel, d, idc', gc, hmem⟩
    · exact ih _ _ p h

theorem mem_genFeatsFold (s : ℚ) (rows : ℕ) :
    ∀ (feats : List Geom) (idc gc : ℕ) (p : Pos),
      p ∈ genFeatsFold s rows feats idc gc →
      ∃ g r fuel d idc' gatter, p ∈ genRowLoop g s rows r gatter fuel d idc' := by
  intro feats
  induction feats with
  | nil => intro idc gc p hp; simp [genFeatsFold] at hp
  | cons g gs ih =>
    intro idc gc p hp
    rw [genFeatsFold] at hp
    rcases List.mem_append.mp hp with h | h
    · obtain ⟨r, fuel, d, idc', gatter, hmem⟩ := mem_genPartsFold g s rows _ _ _ p h
      exact ⟨g, r, fuel, d, idc', gatter, hmem⟩
    · exact ih _ _ p h

theorem mem_genRowLoop_gatter (g : Geom) (s : ℚ) (rows row gatter : ℕ) :
    ∀ (fuel : ℕ) (d : ℚ) (idc : ℕ) (p : Pos),
      p ∈ genRowLoop g s rows row gatter fuel d idc → p.gatter = gatter := by
  intro fuel d idc p hp
  obtain ⟨idc', d', rfl⟩ := mem_genRowLoop g s rows row gatter fuel d idc p hp
  rfl

theorem mem_genRowsFold_gatter (g : Geom) (s : ℚ) (rows gatter : ℕ) :
    ∀ (rl : List ℕ) (idc : ℕ) (p : Pos),
      p ∈ genRowsFold g s rows gatter rl idc → p.gatter = gatter := by
  intro rl
  induction rl with
  | nil => intro idc p hp; simp [genRowsFold] at hp
  | cons r rs ih =>
    intro idc p hp
    rw [genRowsFold] at hp
    rcases List.mem_append.mp hp with h | h
    · exact mem_genRowLoop_gatter g s rows r gatter _ _ _ p h
    · exact ih _ p h

/-! ### Row-loop lemmas for the policy-D allocator. -/

theorem CfgOk.draw_ge_one {c : Cfg} (hc : CfgOk c) (k : ℕ) :
    1 ≤ c.env.randint c.minC c.maxC k :=
  le_trans hc.1 (hc.2.2 c.minC c.maxC k hc.2.1).1

theorem CfgOk.draw_ge_min {c : Cfg} (hc : CfgOk c) (k : ℕ) :
    c.minC ≤ c.env.randint c.minC c.maxC k :=
  (hc.2.2 c.minC c.maxC k hc.2.1).1

theorem CfgOk.draw_le_max {c : Cfg} (hc : CfgOk c) (k : ℕ) :
    c.env.randint c.minC c.maxC k ≤ c.maxC :=
  (hc.2.2 c.minC c.maxC k hc.2.1).2

theorem countType_append (xs ys : List Asg) (t : String) :
    countType (xs ++ ys) t = countType xs t + countType ys t := by
  simp [countType, List.filter_append]

theorem clusterSize_append (xs ys : List Asg) (cid : ℕ) :
    clusterSize (xs ++ ys) cid = clusterSize xs cid + clusterSize ys cid := by
  simp [clusterSize, List.filter_append]

theorem clusterSize_eq_zero {xs : List Asg} {cid : ℕ}
    (h : ∀ a ∈ xs, a.clusterId ≠ cid) : clusterSize xs cid = 0 := by
  simp only [clusterSize, List.length_eq_zero]
  exact List.filter_eq_nil_iff.mpr (by simpa using h)

theorem assignRowLoop_zero (c : Cfg) (row : ℕ) (points : List ℕ) (i : ℕ)
    (gtc : ℤ) (st : AllocSt) :
    assignRowLoop c row points 0 i gtc st = (gtc, st) := rfl

/-- When the scan index has reached the end of the row, the loop is the
identity whatever fuel remains. -/
theorem assignRowLoop_done (c : Cfg) (row : ℕ) (points : List ℕ)
    (fuel i : ℕ) (gtc : ℤ) (st : AllocSt) (h : ¬ i < points.length) :
    assignRowLoop c row points fuel i gtc st = (gtc, st) := by
  cases fuel with
  | zero => rfl
  | succ fuel => rw [assignRowLoop, if_neg h]

/-- The sequence of feature ids written by the row loop is exactly the
remaining suffix of the row, in order: the loop visits every remaining
position exactly once (given positive cluster sizes and enough fuel). -/
theorem assignRowLoop_asg (c : Cfg) (hc : CfgOk c) (row : ℕ)
    (points : List ℕ) :
    ∀ (fuel i : ℕ) (gtc : ℤ) (st : AllocSt), points.length - i ≤ fuel →
      ((assignRowLoop c row points fuel i gtc st).2.asg).map Asg.pid =
        st.asg.map Asg.pid ++ points.drop i := by
  intro fuel
  induction fuel with
  | zero =>
    intro i gtc st hfuel
    have hle : points.length ≤ i := by omega
    rw [assignRowLoop_done c row points 0 i gtc st (by omega)]
    simp [List.drop_eq_nil_of_le hle]
  | succ fuel ih =>
    intro i gtc st hfuel
    have hcluster : ∀ st' : AllocSt,
        ((assign_shrub_cluster c points i st').2.asg).map Asg.pid =
          st'.asg.map Asg.pid ++
            (points.drop i).take (assign_shrub_cluster c points i st').1 := by
      intro st'
      simp only [assign_shrub_cluster, List.map_append, List.map_map]
      rw [show (Asg.pid ∘ fun pid =>
        ({ pid := pid, species := cyc c.shrubList st'.shrubCount,
           ptype := "shrub", clusterId := st'.clusterId } : Asg)) =
        fun pid => pid from rfl, List.map_id']
    by_cases hi : i < points.length
    · rw [assignRowLoop, if_pos hi]
      split
      · -- shrub cluster branch (edge row or tree quota reached)
        have hsz : 1 ≤ (assign_shrub_cluster c points i st).1 :=
          le_min (hc.draw_ge_one st.rix) (by omega)
        have hszle : (assign_shrub_cluster c points i st).1 ≤ points.length - i :=
          min_le_right _ _
        rw [ih _ _ _ (by omega), hcluster st, List.append_assoc]
        congr 1
        rw [← List.drop_drop, List.take_append_drop]
      · split
        · -- tree branch
          rw [ih _ _ _ (by omega)]
          simp only [List.map_append]
          rw [List.append_assoc]
          congr 1
          rw [List.drop_eq_getElem_cons hi]
          simp [List.getD, List.getElem?_eq_getElem hi]
        · -- shrub cluster branch (gatter tree count exhausted)
          have hsz : 1 ≤ (assign_shrub_cluster c points i st).1 :=
            le_min (hc.draw_ge_one st.rix) (by omega)
          have hszle : (assign_shrub_cluster c points i st).1 ≤ points.length - i :=
            min_le_right _ _
          rw [ih _ _ _ (by omega), hcluster st, List.append_assoc]
          congr 1
          rw [← List.drop_drop, List.take_append_drop]
    · rw [assignRowLoop_done c row points _ i gtc st hi]
      have hle : points.length ≤ i := by omega
      simp [List.drop_eq_nil_of_le hle]

/-- With enough fuel the row loop's result does not depend on the exact fuel
value: the loop terminates within `points.length - i` iterations. -/
theorem assignRowLoop_fuel (c : Cfg) (hc : CfgOk c) (row : ℕ)
    (points : List ℕ) :
    ∀ (fuel₁ fuel₂ i : ℕ) (gtc : ℤ) (st : AllocSt),
      points.length - i ≤ fuel₁ → points.length - i ≤ fuel₂ →
      assignRowLoop c row points fuel₁ i gtc st =
        assignRowLoop c row points fuel₂ i gtc st := by
  intro fuel₁
  induction fuel₁ with
  | zero =>
    intro fuel₂ i gtc st h1 h2
    have hi : ¬ i < points.length := by omega
    rw [assignRowLoop_done c row points 0 i gtc st hi,
      assignRowLoop_done c row points fuel₂ i gtc st hi]
  | succ fuel₁ ih =>
    intro fuel₂ i gtc st h1 h2
    by_cases hi : i < points.length
    · cases fuel₂ with
      | zero => omega
      | succ fuel₂ =>
        rw [assignRowLoop, assignRowLoop, if_pos hi, if_pos hi]
        split
        · have hsz : 1 ≤ (assign_shrub_cluster c points i st).1 :=
            le_min (hc.draw_ge_one st.rix) (by omega)
          exact ih fuel₂ _ _ _ (by omega) (by omega)
        · split
          · exact ih fuel₂ _ _ _ (by omega) (by omega)
          · have hsz : 1 ≤ (assign_shrub_cluster c points i st).1 :=
              le_min (hc.draw_ge_one st.rix) (by omega)
            exact ih fuel₂ _ _ _ (by omega) (by omega)
    · rw [assignRowLoop_done c row points _ i gtc st hi,
        assignRowLoop_done c row points fuel₂ i gtc st hi]

/-- Provenance of the writes of the row loop: new writes target ids of the
row, are typed `"shrub"` or `"tree"`, and tree writes occur only on inner
rows and carry cluster id 0. -/
theorem assignRowLoop_prov (c : Cfg) (row : ℕ) (points : List ℕ) :
    ∀ (fuel i : ℕ) (gtc : ℤ) (st : AllocSt) (a : Asg),
      a ∈ (assignRowLoop c row points fuel i gtc st).2.asg →
      a ∈ st.asg ∨
        (a.pid ∈ points ∧
          (a.ptype = "shrub" ∨
            (a.ptype = "tree" ∧ ¬(row = 0 ∨ row = c.rows - 1) ∧
              a.clusterId = 0))) := by
  intro fuel
  induction fuel with
  | zero => intro i gtc st a ha; exact .inl ha
  | succ fuel ih =>
    intro i gtc st a ha
    by_cases hi : i < points.length
    · rw [assignRowLoop, if_pos hi] at ha
      revert ha
      split
      · intro ha
        rcases ih _ _ _ a ha with h | h
        · simp only [assign_shrub_cluster, List.mem_append] at h
          rcases h with h | h
          · exact .inl h
          · obtain ⟨pid, hpid, rfl⟩ := List.mem_map.mp h
            refine .inr ⟨?_, .inl rfl⟩
            exact List.mem_of_mem_drop (List.mem_of_mem_take hpid)
        · exact .inr h
      · split
        · intro ha
          next hcond htree =>
            rcases ih _ _ _ a ha with h | h
            · simp only [List.mem_append, List.mem_singleton] at h
              rcases h with h | h
              · exact .inl h
              · subst h
                refine .inr ⟨List.mem_iff_getElem.mpr
                  ⟨i, hi, (List.getD_eq_getElem points 0 hi).symm⟩,
                  .inr ⟨rfl, ?_, rfl⟩⟩
                intro hor
                exact hcond (by tauto)
            · exact .inr h
        · intro ha
          rcases ih _ _ _ a ha with h | h
          · simp only [assign_shrub_cluster, List.mem_append] at h
            rcases h with h | h
            · exact .inl h
            · obtain ⟨pid, hpid, rfl⟩ := List.mem_map.mp h
              refine .inr ⟨?_, .inl rfl⟩
              exact List.mem_of_mem_drop (List.mem_of_mem_take hpid)
          · exact .inr h
    · rw [assignRowLoop_done c row points _ i gtc st hi] at ha
      exact .inl ha

theorem countType_eq_zero {xs : List Asg} {t : String}
    (h : ∀ a ∈ xs, a.ptype ≠ t) : countType xs t = 0 := by
  simp only [countType, List.length_eq_zero]
  exact List.filter_eq_nil_iff.mpr (by simpa using h)

/-- Count bookkeeping of one shrub-cluster call: the cluster has between 1
and `len - i` positions (given a positive draw), and neither the tree counter
nor the number of tree writes changes. -/
theorem assign_shrub_cluster_facts (c : Cfg) (hc : CfgOk c) (points : List ℕ)
    (i : ℕ) (hi : i < points.length) (st : AllocSt) :
    1 ≤ (assign_shrub_cluster c points i st).1 ∧
    (assign_shrub_cluster c points i st).1 ≤ points.length - i ∧
    (assign_shrub_cluster c points i st).2.treeCount = st.treeCount ∧
    countType (assign_shrub_cluster c points i st).2.asg "tree" =
      countType st.asg "tree" := by
  refine ⟨le_min (hc.draw_ge_one st.rix) (by omega), min_le_right _ _, rfl, ?_⟩
  show countType (st.asg ++ _) "tree" = countType st.asg "tree"
  rw [countType_append]
  have h0 : countType (((points.drop i).take
      (min (c.env.randint c.minC c.maxC st.rix) (points.length - i))).map fun pid =>
      ({ pid := pid, species := cyc c.shrubList st.shrubCount, ptype := "shrub",
         clusterId := st.clusterId } : Asg)) "tree" = 0 := by
    apply countType_eq_zero
    intro a ha
    obtain ⟨pid, _, rfl⟩ := List.mem_map.mp ha
    simp
  rw [h0]
  omega

/-- On an edge row the loop changes neither `gatter_tree_count` nor the tree
counters: it only writes shrub clusters. -/
theorem assignRowLoop_edge (c : Cfg) (hc : CfgOk c) (row : ℕ)
    (points : List ℕ) (hrow : row = 0 ∨ row = c.rows - 1) :
    ∀ (fuel i : ℕ) (gtc : ℤ) (st : AllocSt),
      (assignRowLoop c row points fuel i gtc st).1 = gtc ∧
      (assignRowLoop c row points fuel i gtc st).2.treeCount = st.treeCount ∧
      countType (assignRowLoop c row points fuel i gtc st).2.asg "tree" =
        countType st.asg "tree" := by
  intro fuel
  induction fuel with
  | zero => intro i gtc st; exact ⟨rfl, rfl, rfl⟩
  | succ fuel ih =>
    intro i gtc st
    by_cases hi : i < points.length
    · rw [assignRowLoop, if_pos hi, if_pos (by tauto)]
      obtain ⟨-, -, htc, hcnt⟩ := assign_shrub_cluster_facts c hc points i hi st
      obtain ⟨h1, h2, h3⟩ := ih (i + (assign_shrub_cluster c points i st).1) gtc
        (assign_shrub_cluster c points i st).2
      exact ⟨h1, h2.trans htc, h3.trans hcnt⟩
    · rw [assignRowLoop_done c row points _ i gtc st hi]
      exact ⟨rfl, rfl, rfl⟩

/-- On an inner row, starting with a nonnegative gatter tree budget `gtc`
whose sum with the global tree count stays within the global quota, the loop
assigns exactly `min gtc (len - i)` trees (both in the counter and among the
written records) and returns the budget reduced by the number of consumed
positions. -/
theorem assignRowLoop_inner (c : Cfg) (hc : CfgOk c) (row : ℕ)
    (points : List ℕ) (hrow : ¬(row = 0 ∨ row = c.rows - 1)) :
    ∀ (fuel i : ℕ) (gtc : ℤ) (st : AllocSt),
      points.length - i ≤ fuel → i ≤ points.length → 0 ≤ gtc →
      (st.treeCount : ℤ) + gtc ≤ c.tpc →
      (assignRowLoop c row points fuel i gtc st).1 =
        max 0 (gtc - ((points.length : ℤ) - (i : ℤ))) ∧
      ((assignRowLoop c row points fuel i gtc st).2.treeCount : ℤ) =
        (st.treeCount : ℤ) + min gtc ((points.length : ℤ) - (i : ℤ)) ∧
      (countType (assignRowLoop c row points fuel i gtc st).2.asg "tree" : ℤ) =
        (countType st.asg "tree" : ℤ) + min gtc ((points.length : ℤ) - (i : ℤ)) := by
  intro fuel
  induction fuel with
  | zero =>
    intro i gtc st hfuel hile hgtc hsum
    have hieq : i = points.length := by omega
    rw [assignRowLoop_done c row points 0 i gtc st (by omega)]
    refine ⟨?_, ?_, ?_⟩ <;> [skip; skip; skip] <;>
      · subst hieq
        push_cast
        omega
  | succ fuel ih =>
    intro i gtc st hfuel hile hgtc hsum
    by_cases hi : i < points.length
    · rw [assignRowLoop, if_pos hi]
      rcases lt_or_eq_of_le hgtc with hpos | hzero
      · -- positive gatter budget: a tree is planted
        have hnotq : ¬ c.tpc ≤ (st.treeCount : ℤ) := by omega
        rw [if_neg (by tauto), if_pos hpos]
        have hstep := ih (i + 1) (gtc - 1)
          { st with
            treeCount := st.treeCount + 1
            asg := st.asg ++
              [{ pid := points.getD i 0, species := cyc c.treeList st.treeCount,
                 ptype := "tree", clusterId := 0 }] }
          (by omega) (by omega) (by omega) (by push_cast; omega)
        have hcnt : countType (st.asg ++
            [{ pid := points.getD i 0, species := cyc c.treeList st.treeCount,
               ptype := "tree", clusterId := 0 }]) "tree" =
            countType st.asg "tree" + 1 := by
          rw [countType_append]
          congr 1
        obtain ⟨h1, h2, h3⟩ := hstep
        refine ⟨?_, ?_, ?_⟩
        · rw [h1]; push_cast; omega
        · rw [h2]; push_cast; omega
        · rw [h3, hcnt]; push_cast; omega
      · -- exhausted gatter budget: shrub clusters fill the rest of the row
        have hfacts := assign_shrub_cluster_facts c hc points i hi st
        have happly : ∀ hcond : (row = 0 ∨ row = c.rows - 1 ∨
              c.tpc ≤ (st.treeCount : ℤ)) ∨ ¬(0 < gtc),
            (assignRowLoop c row points fuel
              (i + (assign_shrub_cluster c points i st).1) gtc
              (assign_shrub_cluster c points i st).2).1 =
              max 0 (gtc - ((points.length : ℤ) - (i : ℤ))) ∧
            ((assignRowLoop c row points fuel
              (i + (assign_shrub_cluster c points i st).1) gtc
              (assign_shrub_cluster c points i st).2).2.treeCount : ℤ) =
              (st.treeCount : ℤ) + min gtc ((points.length : ℤ) - (i : ℤ)) ∧
            (countType (assignRowLoop c row points fuel
              (i + (assign_shrub_cluster c points i st).1) gtc
              (assign_shrub_cluster c points i st).2).2.asg "tree" : ℤ) =
              (countType st.asg "tree" : ℤ) +
                min gtc ((points.length : ℤ) - (i : ℤ)) := by
          intro _
          obtain ⟨hs1, hs2, hs3, hs4⟩ := hfacts
          have hstep := ih (i + (assign_shrub_cluster c points i st).1) gtc
            (assign_shrub_cluster c points i st).2
            (by omega) (by omega) (by omega) (by rw [hs3]; omega)
          obtain ⟨h1, h2, h3⟩ := hstep
          refine ⟨?_, ?_, ?_⟩
          · rw [h1]; push_cast; omega
          · rw [h2, hs3]; push_cast; omega
          · rw [h3, hs4]; push_cast; omega
        by_cases hq : c.tpc ≤ (st.treeCount : ℤ)
        · rw [if_pos (by tauto)]
          exact happly (.inl (by tauto))
        · rw [if_neg (by tauto), if_neg (by omega)]
          exact happly (.inr (by omega))
    · rw [assignRowLoop_done c row points _ i gtc st hi]
      have hieq : i = points.length := by omega
      refine ⟨?_, ?_, ?_⟩ <;>
        · subst hieq
          push_cast
          omega

theorem clusterSize_all {xs : List Asg} {cid : ℕ}
    (h : ∀ a ∈ xs, a.clusterId = cid) : clusterSize xs cid = xs.length := by
  unfold clusterSize
  rw [List.filter_eq_self.mpr (by simpa using h)]

/-- Cluster-size bookkeeping of the row loop: the invariant is preserved,
previously closed clusters never grow, and every cluster opened during this
row other than the row's last one has size at least `minClusterSize` (the
last one may be truncated by the end of the row). -/
theorem assignRowLoop_clusters (c : Cfg) (hc : CfgOk c) (row : ℕ)
    (points : List ℕ) :
    ∀ (fuel i : ℕ) (gtc : ℤ) (st : AllocSt), ClustersOk c st →
      ClustersOk c (assignRowLoop c row points fuel i gtc st).2 ∧
      st.clusterId ≤ (assignRowLoop c row points fuel i gtc st).2.clusterId ∧
      (∀ j, 1 ≤ j → j < st.clusterId →
        clusterSize (assignRowLoop c row points fuel i gtc st).2.asg j =
          clusterSize st.asg j) ∧
      (∀ j, st.clusterId ≤ j →
        j + 1 < (assignRowLoop c row points fuel i gtc st).2.clusterId →
        c.minC ≤ clusterSize (assignRowLoop c row points fuel i gtc st).2.asg j) := by
  intro fuel
  induction fuel with
  | zero =>
    intro i gtc st hok
    rw [assignRowLoop_zero]
    dsimp only
    exact ⟨hok, le_refl _, fun j _ _ => rfl, fun j hj hlt => by omega⟩
  | succ fuel ih =>
    intro i gtc st hok
    by_cases hi : i < points.length
    · have hclusterStep :
          ClustersOk c (assignRowLoop c row points fuel
            (i + (assign_shrub_cluster c points i st).1) gtc
            (assign_shrub_cluster c points i st).2).2 ∧
          st.clusterId ≤ (assignRowLoop c row points fuel
            (i + (assign_shrub_cluster c points i st).1) gtc
            (assign_shrub_cluster c points i st).2).2.clusterId ∧
          (∀ j, 1 ≤ j → j < st.clusterId →
            clusterSize (assignRowLoop c row points fuel
              (i + (assign_shrub_cluster c points i st).1) gtc
              (assign_shrub_cluster c points i st).2).2.asg j =
              clusterSize st.asg j) ∧
          (∀ j, st.clusterId ≤ j →
            j + 1 < (assignRowLoop c row points fuel
              (i + (assign_shrub_cluster c points i st).1) gtc
              (assign_shrub_cluster c points i st).2).2.clusterId →
            c.minC ≤ clusterSize (assignRowLoop c row points fuel
              (i + (assign_shrub_cluster c points i st).1) gtc
              (assign_shrub_cluster c points i st).2).2.asg j) := by
        set sz := (assign_shrub_cluster c points i st).1 with hszdef
        set st₁ := (assign_shrub_cluster c points i st).2 with hst₁def
        have hmineq : sz = min (c.env.randint c.minC c.maxC st.rix)
            (points.length - i) := hszdef.trans rfl
        have hsz1 : 1 ≤ sz := by
          have := hc.draw_ge_one st.rix
          omega
        have hszle : sz ≤ points.length - i := by omega
        have hszmax : sz ≤ c.maxC := by
          have := hc.draw_le_max st.rix
          omega
        have hcid₁ : st₁.clusterId = st.clusterId + 1 := rfl
        have hasg₁ : st₁.asg = st.asg ++
            ((points.drop i).take sz).map fun pid =>
              ({ pid := pid, species := cyc c.shrubList st.shrubCount,
                 ptype := "shrub", clusterId := st.clusterId } : Asg) := rfl
        have hblocklen : (((points.drop i).take sz).map fun pid =>
            ({ pid := pid, species := cyc c.shrubList st.shrubCount,
               ptype := "shrub", clusterId := st.clusterId } : Asg)).length = sz := by
          rw [List.length_map, List.length_take, List.length_drop]
          omega
        have hsize₁ : ∀ j, clusterSize st₁.asg j =
            clusterSize st.asg j + (if j = st.clusterId then sz else 0) := by
          intro j
          rw [hasg₁, clusterSize_append]
          congr 1
          by_cases hj : j = st.clusterId
          · subst hj
            rw [if_pos rfl]
            rw [clusterSize_all (by
              intro a ha
              obtain ⟨pid, _, rfl⟩ := List.mem_map.mp ha
              rfl)]
            exact hblocklen
          · rw [if_neg hj]
            apply clusterSize_eq_zero
            intro a ha
            obtain ⟨pid, _, rfl⟩ := List.mem_map.mp ha
            simpa using fun h => hj h.symm
        have hzero : clusterSize st.asg st.clusterId = 0 := by
          apply clusterSize_eq_zero
          intro a ha
          exact Nat.ne_of_lt (hok.2.1 a ha)
        have hok₁ : ClustersOk c st₁ := by
          refine ⟨by omega, ?_, ?_⟩
          · intro a ha
            rw [hasg₁] at ha
            rcases List.mem_append.mp ha with h | h
            · have := hok.2.1 a h
              omega
            · obtain ⟨pid, _, rfl⟩ := List.mem_map.mp h
              simp [hcid₁]
          · intro j hj1 hj2
            rw [hsize₁]
            by_cases hj : j = st.clusterId
            · subst hj
              rw [if_pos rfl, hzero]
              omega
            · rw [if_neg hj]
              have hb := hok.2.2 j hj1 (by omega)
              omega
        obtain ⟨ihok, ihle, ihstab, ihmin⟩ := ih _ gtc st₁ hok₁
        refine ⟨ihok, by omega, ?_, ?_⟩
        · intro j hj1 hj
          rw [ihstab j hj1 (by omega), hsize₁, if_neg (by omega)]
          omega
        · intro j hj hlt
          by_cases hjeq : j = st.clusterId
          · subst hjeq
            have hstab := ihstab st.clusterId hok.1 (by omega)
            rw [hstab, hsize₁, if_pos rfl, hzero]
            by_cases hend : i + sz < points.length
            · have hges := hc.draw_ge_min st.rix
              omega
            · exfalso
              rw [assignRowLoop_done c row points fuel _ gtc st₁
                (by omega)] at hlt
              dsimp only at hlt
              rw [hcid₁] at hlt
              omega
          · exact ihmin j (by omega) hlt
      rw [assignRowLoop, if_pos hi]
      split
      · exact hclusterStep
      · split
        · -- tree branch: the new write has cluster id 0, sizes of ids ≥ 1
          -- are untouched and the cluster counter does not move
          set st' : AllocSt := { st with
            treeCount := st.treeCount + 1
            asg := st.asg ++
              [{ pid := points.getD i 0, species := cyc c.treeList st.treeCount,
                 ptype := "tree", clusterId := 0 }] } with hst'def
          have hcid' : st'.clusterId = st.clusterId := rfl
          have hsize' : ∀ j, 1 ≤ j →
              clusterSize st'.asg j = clusterSize st.asg j := by
            intro j hj
            show clusterSize (st.asg ++ _) j = clusterSize st.asg j
            rw [clusterSize_append]
            have h0 : clusterSize
                [({ pid := points.getD i 0,
                    species := cyc c.treeList st.treeCount,
                    ptype := "tree", clusterId := 0 } : Asg)] j = 0 := by
              apply clusterSize_eq_zero
              intro a ha
              rw [List.mem_singleton] at ha
              subst ha
              simpa using by omega
            rw [h0]
            omega
          have hok' : ClustersOk c st' := by
            refine ⟨hok.1, ?_, ?_⟩
            · intro a ha
              rcases List.mem_append.mp ha with h | h
              · exact hok.2.1 a h
              · rw [List.mem_singleton] at h
                subst h
                simpa using hok.1
            · intro j hj1 hj2
              rw [hsize' j hj1]
              exact hok.2.2 j hj1 hj2
          obtain ⟨ihok, ihle, ihstab, ihmin⟩ := ih _ (gtc - 1) st' hok'
          refine ⟨ihok, ihle, ?_, ?_⟩
          · intro j hj1 hj
            rw [ihstab j hj1 hj, hsize' j hj1]
          · intro j hj hlt
            exact ihmin j hj hlt
        · exact hclusterStep
    · rw [assignRowLoop_done c row points _ i gtc st hi]
      dsimp only
      exact ⟨hok, le_refl _, fun j _ _ => rfl, fun j hj hlt => by omega⟩

/-! ### Rows-fold lemmas (the per-gatter `for row in range(rows)` loop). -/

theorem assignRowsFold_cons (c : Cfg) (byRow : ℕ → List ℕ) (r : ℕ)
    (rs : List ℕ) (gtc : ℤ) (st : AllocSt) :
    assignRowsFold c byRow (r :: rs) gtc st =
      assignRowsFold c byRow rs
        (assignRowLoop c r (c.env.shuffleRow (byRow r))
          (c.env.shuffleRow (byRow r)).length 0 gtc st).1
        (assignRowLoop c r (c.env.shuffleRow (byRow r))
          (c.env.shuffleRow (byRow r)).length 0 gtc st).2 := rfl

theorem assignRowLoop_extends (c : Cfg) (row : ℕ) (points : List ℕ) :
    ∀ (fuel i : ℕ) (gtc : ℤ) (st : AllocSt),
      ∃ Δ, (assignRowLoop c row points fuel i gtc st).2.asg = st.asg ++ Δ := by
  intro fuel
  induction fuel with
  | zero => intro i gtc st; exact ⟨[], by simp [assignRowLoop_zero]⟩
  | succ fuel ih =>
    intro i gtc st
    by_cases hi : i < points.length
    · rw [assignRowLoop, if_pos hi]
      split
      · obtain ⟨Δ, hΔ⟩ := ih (i + (assign_shrub_cluster c points i st).1) gtc
          (assign_shrub_cluster c points i st).2
        exact ⟨_ ++ Δ, by rw [hΔ]; exact List.append_assoc _ _ _⟩
      · split
        · obtain ⟨Δ, hΔ⟩ := ih (i + 1) (gtc - 1) _
          exact ⟨_ ++ Δ, by rw [hΔ]; exact List.append_assoc _ _ _⟩
        · obtain ⟨Δ, hΔ⟩ := ih (i + (assign_shrub_cluster c points i st).1) gtc
            (assign_shrub_cluster c points i st).2
          exact ⟨_ ++ Δ, by rw [hΔ]; exact List.append_assoc _ _ _⟩
    · rw [assignRowLoop_done c row points _ i gtc st hi]
      exact ⟨[], by simp⟩

theorem assignRowsFold_extends (c : Cfg) (byRow : ℕ → List ℕ) :
    ∀ (rl : List ℕ) (gtc : ℤ) (st : AllocSt),
      ∃ Δ, (assignRowsFold c byRow rl gtc st).2.asg = st.asg ++ Δ := by
  intro rl
  induction rl with
  | nil => intro gtc st; exact ⟨[], by simp [assignRowsFold]⟩
  | cons r rs ih =>
    intro gtc st
    rw [assignRowsFold_cons]
    obtain ⟨Δ₁, hΔ₁⟩ := assignRowLoop_extends c r (c.env.shuffleRow (byRow r))
      (c.env.shuffleRow (byRow r)).length 0 gtc st
    obtain ⟨Δ₂, hΔ₂⟩ := ih _ _
    exact ⟨Δ₁ ++ Δ₂, by rw [hΔ₂, hΔ₁]; exact List.append_assoc _ _ _⟩

/-- The feature ids written while processing the rows of one gatter are the
concatenation of its shuffled row lists, in row order. -/
theorem assignRowsFold_pids (c : Cfg) (hc : CfgOk c) (byRow : ℕ → List ℕ) :
    ∀ (rl : List ℕ) (gtc : ℤ) (st : AllocSt),
      ((assignRowsFold c byRow rl gtc st).2.asg).map Asg.pid =
        st.asg.map Asg.pid ++
          rl.flatMap (fun r => c.env.shuffleRow (byRow r)) := by
  intro rl
  induction rl with
  | nil => intro gtc st; simp [assignRowsFold]
  | cons r rs ih =>
    intro gtc st
    rw [assignRowsFold_cons, ih, assignRowLoop_asg c hc r _ _ 0 gtc st (by omega)]
    simp [List.append_assoc]

/-- Tree bookkeeping across the rows of one gatter: starting with tree budget
`gtc ≥ 0` compatible with the global quota, the rows consume
`min gtc innerCapacity` trees (in the counter and among the writes) and
return the leftover budget. -/
theorem assignRowsFold_trees (c : Cfg) (hc : CfgOk c) (byRow : ℕ → List ℕ) :
    ∀ (rl : List ℕ) (gtc : ℤ) (st : AllocSt), 0 ≤ gtc →
      (st.treeCount : ℤ) + gtc ≤ c.tpc →
      (assignRowsFold c byRow rl gtc st).1 =
        max 0 (gtc - (innerLenSum c byRow rl : ℤ)) ∧
      ((assignRowsFold c byRow rl gtc st).2.treeCount : ℤ) =
        (st.treeCount : ℤ) + min gtc (innerLenSum c byRow rl : ℤ) ∧
      (countType (assignRowsFold c byRow rl gtc st).2.asg "tree" : ℤ) =
        (countType st.asg "tree" : ℤ) + min gtc (innerLenSum c byRow rl : ℤ) := by
  intro rl
  induction rl with
  | nil =>
    intro gtc st hgtc hsum
    refine ⟨?_, ?_, ?_⟩ <;> simp [assignRowsFold, innerLenSum] <;> omega
  | cons r rs ih =>
    intro gtc st hgtc hsum
    rw [assignRowsFold_cons]
    have hsumcons : (innerLenSum c byRow (r :: rs) : ℤ) =
        (if r = 0 ∨ r = c.rows - 1 then 0
          else ((c.env.shuffleRow (byRow r)).length : ℤ)) +
          (innerLenSum c byRow rs : ℤ) := by
      simp only [innerLenSum, List.map_cons, List.sum_cons]
      push_cast
      split <;> simp
    by_cases hrow : r = 0 ∨ r = c.rows - 1
    · obtain ⟨h1, h2, h3⟩ := assignRowLoop_edge c hc r
        (c.env.shuffleRow (byRow r)) hrow
        (c.env.shuffleRow (byRow r)).length 0 gtc st
      have hbud : 0 ≤ (assignRowLoop c r (c.env.shuffleRow (byRow r))
          (c.env.shuffleRow (byRow r)).length 0 gtc st).1 := by
        rw [h1]; omega
      have hquo : (((assignRowLoop c r (c.env.shuffleRow (byRow r))
          (c.env.shuffleRow (byRow r)).length 0 gtc st).2.treeCount : ℤ)) +
          (assignRowLoop c r (c.env.shuffleRow (byRow r))
            (c.env.shuffleRow (byRow r)).length 0 gtc st).1 ≤ c.tpc := by
        rw [h2, h1]; omega
      obtain ⟨g1, g2, g3⟩ := ih _ _ hbud hquo
      rw [hsumcons, if_pos hrow]
      rw [g1, g2, g3, h1, h2, h3]
      refine ⟨by omega, by omega, by omega⟩
    · have hloop := assignRowLoop_inner c hc r (c.env.shuffleRow (byRow r))
        hrow (c.env.shuffleRow (byRow r)).length 0 gtc st
        (by omega) (by omega) hgtc hsum
      obtain ⟨h1, h2, h3⟩ := hloop
      have hbud : 0 ≤ (assignRowLoop c r (c.env.shuffleRow (byRow r))
          (c.env.shuffleRow (byRow r)).length 0 gtc st).1 := by
        rw [h1]; omega
      have hquo : (((assignRowLoop c r (c.env.shuffleRow (byRow r))
          (c.env.shuffleRow (byRow r)).length 0 gtc st).2.treeCount : ℤ)) +
          (assignRowLoop c r (c.env.shuffleRow (byRow r))
            (c.env.shuffleRow (byRow r)).length 0 gtc st).1 ≤ c.tpc := by
        rw [h2, h1]
        push_cast
        omega
      obtain ⟨g1, g2, g3⟩ := ih _ _ hbud hquo
      rw [hsumcons, if_neg hrow]
      rw [g1, g2, g3, h1, h2, h3]
      push_cast
      refine ⟨by omega, by omega, by omega⟩

/-- Provenance across the rows of one gatter. -/
theorem assignRowsFold_prov (c : Cfg) (byRow : ℕ → List ℕ) :
    ∀ (rl : List ℕ) (gtc : ℤ) (st : AllocSt) (a : Asg),
      a ∈ (assignRowsFold c byRow rl gtc st).2.asg →
      a ∈ st.asg ∨ ∃ r ∈ rl, a.pid ∈ c.env.shuffleRow (byRow r) ∧
        (a.ptype = "shrub" ∨
          (a.ptype = "tree" ∧ ¬(r = 0 ∨ r = c.rows - 1) ∧ a.clusterId = 0)) := by
  intro rl
  induction rl with
  | nil => intro gtc st a ha; exact .inl ha
  | cons r rs ih =>
    intro gtc st a ha
    rw [assignRowsFold_cons] at ha
    rcases ih _ _ a ha with h | h
    · rcases assignRowLoop_prov c r (c.env.shuffleRow (byRow r)) _ 0 gtc st a h
        with h' | h'
      · exact .inl h'
      · exact .inr ⟨r, by simp, h'.1, h'.2⟩
    · obtain ⟨r', hr', hmem, hty⟩ := h
      exact .inr ⟨r', by simp [hr'], hmem, hty⟩

/-- The cluster invariant survives the rows of one gatter. -/
theorem assignRowsFold_clusters (c : Cfg) (hc : CfgOk c) (byRow : ℕ → List ℕ) :
    ∀ (rl : List ℕ) (gtc : ℤ) (st : AllocSt), ClustersOk c st →
      ClustersOk c (assignRowsFold c byRow rl gtc st).2 := by
  intro rl
  induction rl with
  | nil => intro gtc st hok; exact hok
  | cons r rs ih =>
    intro gtc st hok
    rw [assignRowsFold_cons]
    exact ih _ _ ((assignRowLoop_clusters c hc r _ _ 0 gtc st hok).1)

/-! ### Gatter-fold lemmas (the `for gatter_id, point_ids in
gatter_groups.items()` loop), and the tree-share arithmetic. -/

theorem assignGattersFold_cons (c : Cfg) (ps : List Pos) (tpg : ℤ) (g : ℕ)
    (gs : List ℕ) (extra : ℤ) (st : AllocSt) :
    assignGattersFold c ps tpg (g :: gs) extra st =
      assignGattersFold c ps tpg gs (max 0 (extra - 1))
        (assignRowsFold c (pidsOfGatterRow ps g) (List.range c.rows)
          (tpg + (if 0 < extra then 1 else 0)) st).2 := rfl

theorem assignGattersFold_pids (c : Cfg) (hc : CfgOk c) (ps : List Pos)
    (tpg : ℤ) :
    ∀ (gs : List ℕ) (extra : ℤ) (st : AllocSt),
      ((assignGattersFold c ps tpg gs extra st).asg).map Asg.pid =
        st.asg.map Asg.pid ++
          gs.flatMap (fun g => (List.range c.rows).flatMap
            (fun r => c.env.shuffleRow (pidsOfGatterRow ps g r))) := by
  intro gs
  induction gs with
  | nil => intro extra st; simp [assignGattersFold]
  | cons g gs ih =>
    intro extra st
    rw [assignGattersFold_cons, ih,
      assignRowsFold_pids c hc (pidsOfGatterRow ps g) (List.range c.rows)]
    simp [List.append_assoc]

theorem assignGattersFold_prov (c : Cfg) (ps : List Pos) (tpg : ℤ) :
    ∀ (gs : List ℕ) (extra : ℤ) (st : AllocSt) (a : Asg),
      a ∈ (assignGattersFold c ps tpg gs extra st).asg →
      a ∈ st.asg ∨ ∃ g ∈ gs, ∃ r ∈ List.range c.rows,
        a.pid ∈ c.env.shuffleRow (pidsOfGatterRow ps g r) ∧
        (a.ptype = "shrub" ∨
          (a.ptype = "tree" ∧ ¬(r = 0 ∨ r = c.rows - 1) ∧ a.clusterId = 0)) := by
  intro gs
  induction gs with
  | nil => intro extra st a ha; exact .inl ha
  | cons g gs ih =>
    intro extra st a ha
    rw [assignGattersFold_cons] at ha
    rcases ih _ _ a ha with h | h
    · rcases assignRowsFold_prov c (pidsOfGatterRow ps g) (List.range c.rows)
        _ st a h with h' | h'
      · exact .inl h'
      · obtain ⟨r, hr, hmem, hty⟩ := h'
        exact .inr ⟨g, by simp, r, hr, hmem, hty⟩
    · obtain ⟨g', hg', hrest⟩ := h
      exact .inr ⟨g', by simp [hg'], hrest⟩

theorem assignGattersFold_clusters (c : Cfg) (hc : CfgOk c) (ps : List Pos)
    (tpg : ℤ) :
    ∀ (gs : List ℕ) (extra : ℤ) (st : AllocSt), ClustersOk c st →
      ClustersOk c (assignGattersFold c ps tpg gs extra st) := by
  intro gs
  induction gs with
  | nil => intro extra st hok; exact hok
  | cons g gs ih =>
    intro extra st hok
    rw [assignGattersFold_cons]
    exact ih _ _ (assignRowsFold_clusters c hc _ _ _ st hok)

theorem sharesSum_eval (tpg : ℤ) {extra : ℤ} (he : 0 ≤ extra) (n : ℕ) :
    sharesSum tpg extra n = n * tpg + min extra (n : ℤ) := by
  induction n with
  | zero => simp [sharesSum]; omega
  | succ n ih =>
    rw [sharesSum, List.range_succ, List.map_append, List.sum_append]
    rw [show (List.map (fun k : ℕ => tpg + (if (k : ℤ) < extra then (1 : ℤ) else 0))
      (List.range n)).sum = sharesSum tpg extra n from rfl, ih]
    have hcast : ((n + 1 : ℕ) : ℤ) * tpg = (n : ℤ) * tpg + tpg := by
      push_cast
      ring
    rw [hcast]
    simp only [List.map_cons, List.map_nil, List.sum_cons, List.sum_nil]
    push_cast
    split_ifs <;> omega

theorem sharesSum_nonneg (tpg : ℤ) {extra : ℤ} (htpg : 0 ≤ tpg)
    (he : 0 ≤ extra) (n : ℕ) : 0 ≤ sharesSum tpg extra n := by
  rw [sharesSum_eval tpg he]
  have : 0 ≤ (n : ℤ) * tpg := mul_nonneg (by positivity) htpg
  omega

theorem sharesSum_succ_head (tpg : ℤ) {extra : ℤ} (he : 0 ≤ extra) (n : ℕ) :
    sharesSum tpg extra (n + 1) =
      (tpg + if 0 < extra then 1 else 0) +
        sharesSum tpg (max 0 (extra - 1)) n := by
  rw [sharesSum_eval tpg he, sharesSum_eval tpg (le_max_left 0 _)]
  have hcast : ((n + 1 : ℕ) : ℤ) * tpg = (n : ℤ) * tpg + tpg := by
    push_cast
    ring
  rw [hcast]
  split_ifs <;> omega

/-- Per-gatter segments of the allocation trace: under nonnegative shares,
the global-quota bound, and sufficient inner-row capacity in every gatter,
the trace decomposes into one segment per gatter whose written ids are the
gatter's shuffled rows in order and whose tree count equals the gatter's
exact share `tpg + (1 if k < extra else 0)`. -/
theorem assignGattersFold_segs (c : Cfg) (hc : CfgOk c) (ps : List Pos)
    (tpg : ℤ) (htpg : 0 ≤ tpg) :
    ∀ (gs : List ℕ) (extra : ℤ) (st : AllocSt), 0 ≤ extra →
      (st.treeCount : ℤ) + sharesSum tpg extra gs.length ≤ c.tpc →
      (∀ k, ∀ hk : k < gs.length,
        tpg + (if (k : ℤ) < extra then 1 else 0) ≤
          (innerLenSum c (pidsOfGatterRow ps (gs.get ⟨k, hk⟩))
            (List.range c.rows) : ℤ)) →
      ∃ segs : List (List Asg),
        (assignGattersFold c ps tpg gs extra st).asg =
          st.asg ++ segs.flatMap id ∧
        segs.length = gs.length ∧
        ∀ k, ∀ hk : k < segs.length, ∀ hk' : k < gs.length,
          (segs.get ⟨k, hk⟩).map Asg.pid =
            (List.range c.rows).flatMap
              (fun r => c.env.shuffleRow
                (pidsOfGatterRow ps (gs.get ⟨k, hk'⟩) r)) ∧
          (countType (segs.get ⟨k, hk⟩) "tree" : ℤ) =
            tpg + (if (k : ℤ) < extra then 1 else 0) := by
  intro gs
  induction gs with
  | nil =>
    intro extra st he hq hcap
    exact ⟨[], by simp [assignGattersFold], rfl, fun k hk => by simp at hk⟩
  | cons g gs ih =>
    intro extra st he hq hcap
    rw [assignGattersFold_cons]
    have hshare0 : (tpg + (if 0 < extra then 1 else 0)) =
        tpg + (if ((0 : ℕ) : ℤ) < extra then 1 else 0) := by
      norm_num
    have hgtc0 : 0 ≤ tpg + (if 0 < extra then 1 else 0) := by
      split_ifs <;> omega
    have hrest0 : 0 ≤ sharesSum tpg (max 0 (extra - 1)) gs.length :=
      sharesSum_nonneg tpg htpg (le_max_left 0 _) gs.length
    have hsplit := sharesSum_succ_head tpg he gs.length
    have hq0 : (st.treeCount : ℤ) + (tpg + (if 0 < extra then 1 else 0)) ≤
        c.tpc := by
      rw [show (g :: gs).length = gs.length + 1 from rfl, hsplit] at hq
      omega
    have hcap0 := hcap 0 (by simp)
    rw [show ((g :: gs).get ⟨0, by simp⟩) = g from rfl] at hcap0
    rw [← hshare0] at hcap0
    -- effect of this gatter's rows
    have hrows := assignRowsFold_trees c hc (pidsOfGatterRow ps g)
      (List.range c.rows) (tpg + (if 0 < extra then 1 else 0)) st hgtc0 hq0
    obtain ⟨hr1, hr2, hr3⟩ := hrows
    have hminEq : min (tpg + (if 0 < extra then 1 else 0))
        ((innerLenSum c (pidsOfGatterRow ps g) (List.range c.rows)) : ℤ) =
        tpg + (if 0 < extra then 1 else 0) := min_eq_left hcap0
    obtain ⟨Δ, hΔ⟩ := assignRowsFold_extends c (pidsOfGatterRow ps g)
      (List.range c.rows) (tpg + (if 0 < extra then 1 else 0)) st
    have hpids := assignRowsFold_pids c hc (pidsOfGatterRow ps g)
      (List.range c.rows) (tpg + (if 0 < extra then 1 else 0)) st
    rw [hΔ, List.map_append] at hpids
    have hΔpids : Δ.map Asg.pid =
        (List.range c.rows).flatMap
          (fun r => c.env.shuffleRow (pidsOfGatterRow ps g r)) :=
      List.append_cancel_left hpids
    have hΔtrees : (countType Δ "tree" : ℤ) =
        tpg + (if 0 < extra then 1 else 0) := by
      have := hr3
      rw [hΔ, countType_append, hminEq] at this
      push_cast at this
      omega
    -- the remaining gatters, from the post-state
    have hq' : (((assignRowsFold c (pidsOfGatterRow ps g) (List.range c.rows)
        (tpg + (if 0 < extra then 1 else 0)) st).2.treeCount : ℤ)) +
        sharesSum tpg (max 0 (extra - 1)) gs.length ≤ c.tpc := by
      rw [hr2, hminEq]
      rw [show (g :: gs).length = gs.length + 1 from rfl, hsplit] at hq
      omega
    have hcap' : ∀ k, ∀ hk : k < gs.length,
        tpg + (if (k : ℤ) < max 0 (extra - 1) then 1 else 0) ≤
          (innerLenSum c (pidsOfGatterRow ps (gs.get ⟨k, hk⟩))
            (List.range c.rows) : ℤ) := by
      intro k hk
      have := hcap (k + 1) (by simpa using Nat.succ_lt_succ hk)
      rw [show ((g :: gs).get ⟨k + 1, by simpa using Nat.succ_lt_succ hk⟩) =
        gs.get ⟨k, hk⟩ from rfl] at this
      have hite : (if ((k + 1 : ℕ) : ℤ) < extra then (1 : ℤ) else 0) =
          (if (k : ℤ) < max 0 (extra - 1) then 1 else 0) := by
        push_cast
        split_ifs <;> omega
      rw [hite] at this
      exact this
    obtain ⟨segs', hs1, hs2, hs3⟩ := ih (max 0 (extra - 1)) _
      (le_max_left 0 _) hq' hcap'
    refine ⟨Δ :: segs', ?_, by simp [hs2], ?_⟩
    · rw [hs1, hΔ]
      simp [List.append_assoc]
    · intro k hk hk'
      match k with
      | 0 =>
        refine ⟨?_, ?_⟩
        · rw [show ((Δ :: segs').get ⟨0, hk⟩) = Δ from rfl,
            show ((g :: gs).get ⟨0, hk'⟩) = g from rfl]
          exact hΔpids
        · rw [show ((Δ :: segs').get ⟨0, hk⟩) = Δ from rfl]
          rw [hΔtrees, hshare0]
      | k + 1 =>
        have hk2 : k < segs'.length := by simpa using Nat.lt_of_succ_lt_succ hk
        have hk2' : k < gs.length := by simpa using Nat.lt_of_succ_lt_succ hk'
        obtain ⟨hp, ht⟩ := hs3 k hk2 hk2'
        refine ⟨?_, ?_⟩
        · rw [show ((Δ :: segs').get ⟨k + 1, hk⟩) = segs'.get ⟨k, hk2⟩ from rfl,
            show ((g :: gs).get ⟨k + 1, hk'⟩) = gs.get ⟨k, hk2'⟩ from rfl]
          exact hp
        · rw [show ((Δ :: segs').get ⟨k + 1, hk⟩) = segs'.get ⟨k, hk2⟩ from rfl,
            ht]
          have : (if ((k + 1 : ℕ) : ℤ) < extra then (1 : ℤ) else 0) =
              (if (k : ℤ) < max 0 (extra - 1) then 1 else 0) := by
            push_cast
            split_ifs <;> omega
          rw [this]

/-! ### Grouping lemmas: dict insertion order and partition permutations. -/

theorem flatMap_congr_of_mem {α β : Type} {l : List α} {f g : α → List β}
    (h : ∀ x ∈ l, f x = g x) : l.flatMap f = l.flatMap g := by
  induction l with
  | nil => rfl
  | cons x xs ih =>
    rw [List.flatMap_cons, List.flatMap_cons, h x (by simp),
      ih fun y hy => h y (by simp [hy])]

theorem flatMap_perm_of_perm {α β : Type} {l : List α} {f g : α → List β}
    (h : ∀ x ∈ l, (f x).Perm (g x)) : (l.flatMap f).Perm (l.flatMap g) := by
  induction l with
  | nil => exact List.Perm.refl _
  | cons x xs ih =>
    rw [List.flatMap_cons, List.flatMap_cons]
    exact (h x (by simp)).append (ih fun y hy => h y (by simp [hy]))

/-- Partitioning a list by a key over a duplicate-free, covering key list is
a permutation of the list: the dict-of-lists grouping loses and duplicates
nothing. -/
theorem partition_by_key_perm {α : Type} (key : α → ℕ) :
    ∀ (keys : List ℕ) (l : List α), keys.Nodup →
      (∀ x ∈ l, key x ∈ keys) →
      (keys.flatMap fun v => l.filter fun x => key x = v).Perm l := by
  intro keys l hnd
  induction l generalizing keys with
  | nil =>
    intro _
    have : ∀ v ∈ keys, (List.filter (fun x => key x = v) ([] : List α)) = [] :=
      fun v _ => rfl
    rw [flatMap_congr_of_mem this]
    simp
  | cons x xs ih =>
    intro hmem
    obtain ⟨k₁, k₂, hkeys⟩ := List.append_of_mem (hmem x (by simp))
    subst hkeys
    have hnd' := List.nodup_append.mp hnd
    have hx2 : key x ∉ k₂ := (List.nodup_cons.mp hnd'.2.1).1
    have hx1 : key x ∉ k₁ := fun hin =>
      hnd'.2.2 hin (by simp)
    have hchunk : ∀ v ∈ k₁ ++ k₂,
        (x :: xs).filter (fun y => key y = v) =
          xs.filter (fun y => key y = v) := by
      intro v hv
      have hvne : key x ≠ v := by
        rcases List.mem_append.mp hv with h | h
        · exact fun he => hx1 (he ▸ h)
        · exact fun he => hx2 (he ▸ h)
      exact List.filter_cons_of_neg (by simpa using hvne)
    rw [List.flatMap_append, List.flatMap_cons]
    rw [List.filter_cons_of_pos (by simp)]
    rw [flatMap_congr_of_mem fun v hv =>
      hchunk v (List.mem_append.mpr (.inl hv))]
    rw [flatMap_congr_of_mem fun v hv =>
      hchunk v (List.mem_append.mpr (.inr hv))]
    have hperm1 := @List.perm_middle _ x
      (k₁.flatMap fun v => xs.filter fun y => key y = v)
      ((xs.filter fun y => key y = key x) ++
        (k₂.flatMap fun v => xs.filter fun y => key y = v))
    have hih := ih (k₁ ++ key x :: k₂) hnd
      (fun y hy => hmem y (by simp [hy]))
    rw [List.flatMap_append, List.flatMap_cons] at hih
    exact hperm1.trans (hih.cons x)

theorem firstOccsAux_sound :
    ∀ (n : ℕ) (l : List ℕ), ∀ x ∈ firstOccsAux n l, x ∈ l := by
  intro n
  induction n with
  | zero =>
    intro l x hx
    simp [firstOccsAux] at hx
  | succ n ihn =>
    intro l x hx
    match l with
    | [] => simp [firstOccsAux] at hx
    | y :: ys =>
      rw [firstOccsAux] at hx
      rcases List.mem_cons.mp hx with rfl | hx'
      · simp
      · have := ihn _ x hx'
        exact List.mem_cons.mpr (.inr (List.mem_of_mem_filter this))

theorem firstOccsAux_complete :
    ∀ (n : ℕ) (l : List ℕ), l.length ≤ n → ∀ x ∈ l, x ∈ firstOccsAux n l := by
  intro n
  induction n with
  | zero =>
    intro l hl x hx
    match l with
    | [] => simp at hx
    | y :: ys => simp at hl
  | succ n ihn =>
    intro l hl x hx
    match l with
    | [] => simp at hx
    | y :: ys =>
      rw [firstOccsAux]
      rcases List.mem_cons.mp hx with rfl | hx'
      · simp
      · by_cases hxy : x = y
        · simp [hxy]
        · have hys : ys.length ≤ n := by
            simp only [List.length_cons] at hl
            omega
          have hlen : (ys.filter fun b => b ≠ y).length ≤ n :=
            le_trans (List.length_filter_le _ ys) hys
          have hmem : x ∈ ys.filter fun b => b ≠ y :=
            List.mem_filter.mpr ⟨hx', by simpa using hxy⟩
          exact List.mem_cons.mpr (.inr (ihn _ hlen x hmem))

theorem firstOccsAux_nodup :
    ∀ (n : ℕ) (l : List ℕ), (firstOccsAux n l).Nodup := by
  intro n
  induction n with
  | zero =>
    intro l
    simp [firstOccsAux]
  | succ n ihn =>
    intro l
    match l with
    | [] => simp [firstOccsAux]
    | y :: ys =>
      rw [firstOccsAux]
      refine List.nodup_cons.mpr ⟨?_, ihn _⟩
      intro hmem
      have := firstOccsAux_sound n _ y hmem
      have := List.of_mem_filter this
      simp at this

theorem firstOccs_sound :
    ∀ (n : ℕ) (l : List ℕ), l.length ≤ n → ∀ x ∈ firstOccs l, x ∈ l :=
  fun _ l _ => firstOccsAux_sound l.length l

theorem firstOccs_complete :
    ∀ (n : ℕ) (l : List ℕ), l.length ≤ n → ∀ x ∈ l, x ∈ firstOccs l :=
  fun _ l _ => firstOccsAux_complete l.length l (le_refl _)

theorem firstOccs_nodup :
    ∀ (n : ℕ) (l : List ℕ), l.length ≤ n → (firstOccs l).Nodup :=
  fun _ l _ => firstOccsAux_nodup l.length l

/-! ### Top-level characterization of a successful allocator run. -/

theorem gattersOf_ne_nil {ps : List Pos} (hps : ps ≠ []) :
    (gattersOf ps).length ≠ 0 := by
  match ps, hps with
  | p :: ps', _ =>
    intro h
    unfold gattersOf firstOccs at h
    simp [firstOccsAux] at h

theorem gattersOf_nodup (ps : List Pos) : (gattersOf ps).Nodup :=
  firstOccs_nodup (ps.map (·.gatter)).length _ (le_refl _)

theorem mem_gattersOf {ps : List Pos} {p : Pos} (hp : p ∈ ps) :
    p.gatter ∈ gattersOf ps :=
  firstOccs_complete (ps.map (·.gatter)).length _ (le_refl _) _
    (List.mem_map_of_mem _ hp)

/-- With a nonnegative quota, the pool of a non-empty species list is
non-empty: each species contributes `quota // len + 1 ≥ 1` copies. -/
theorem buildPool_ne_nil (l : List String) (q : ℤ) (hl : l ≠ [])
    (hq : 0 ≤ q) : buildPool l q ≠ [] := by
  match l, hl with
  | s :: l', _ =>
    intro h
    have hdiv : 0 ≤ q.fdiv ((s :: l').length : ℤ) :=
      Int.fdiv_nonneg hq (by positivity)
    unfold buildPool at h
    rw [List.flatMap_cons] at h
    rcases List.append_eq_nil.mp h with ⟨h1, -⟩
    rw [List.replicate_eq_nil_iff] at h1
    omega

/-- `int(total * (pct / 100))` is nonnegative for a nonnegative
percentage. -/
theorem tpcOf_nonneg (ps : List Pos) (treePct : ℚ) (h : 0 ≤ treePct) :
    0 ≤ tpcOf ps treePct := by
  unfold tpcOf pyInt
  have harg : 0 ≤ (ps.length : ℚ) * (treePct / 100) :=
    mul_nonneg (by positivity) (div_nonneg h (by norm_num))
  rw [if_pos harg]
  exact Int.floor_nonneg.mpr harg

/-- For a percentage at most 100 the tree quota is at most the layer
size, so the shrub quota `total - tree_points_count` is nonnegative. -/
theorem tpcOf_le_len (ps : List Pos) (treePct : ℚ) (h : treePct ≤ 100) :
    tpcOf ps treePct ≤ (ps.length : ℤ) := by
  unfold tpcOf pyInt
  have harg : (ps.length : ℚ) * (treePct / 100) ≤ (ps.length : ℚ) := by
    calc (ps.length : ℚ) * (treePct / 100) ≤ (ps.length : ℚ) * 1 := by
          apply mul_le_mul_of_nonneg_left _ (by positivity)
          linarith
      _ = (ps.length : ℚ) := mul_one _
  split
  · calc ⌊(ps.length : ℚ) * (treePct / 100)⌋ ≤ ⌊(ps.length : ℚ)⌋ :=
        Int.floor_le_floor harg
      _ = (ps.length : ℤ) := Int.floor_natCast _
  · rename_i hneg
    push_neg at hneg
    calc ⌈(ps.length : ℚ) * (treePct / 100)⌉ ≤ ⌈(0 : ℚ)⌉ :=
        Int.ceil_le_ceil (le_of_lt hneg)
      _ = 0 := Int.ceil_zero
      _ ≤ (ps.length : ℤ) := by positivity

/-- With non-empty required species lists, a percentage in `[0, 100]`, a
permutation-respecting random source and a non-empty point collection, both
pools are non-empty, no empty pool is ever indexed, and the allocator
commits: its trace is the gatter fold from the initial state. -/
theorem alloc_ok (e : Env) (ps : List Pos) (dist : List SpeciesEntry)
    (treePct shrubPct : ℚ) (rows minC maxC : ℕ) (hEnv : EnvPerm e)
    (ht : treeSpeciesOf dist ≠ []) (hs : shrubSpeciesOf dist ≠ [])
    (hps : ps ≠ []) (hpct0 : 0 ≤ treePct) (hpct1 : treePct ≤ 100) :
    attribute_species_to_points_with_clusters e ps dist treePct shrubPct
        rows minC maxC =
      .ok (assignGattersFold (cfgOf e ps dist treePct rows minC maxC) ps
        ((tpcOf ps treePct).fdiv (gattersOf ps).length) (gattersOf ps)
        ((tpcOf ps treePct).fmod (gattersOf ps).length)
        { shrubCount := 0, treeCount := 0, clusterId := 1, rix := 0,
          asg := [] }).asg := by
  have h3 : ¬ (firstOccs (ps.map (·.gatter))).length = 0 :=
    gattersOf_ne_nil hps
  have htp : (e.shuffleTrees (buildPool (treeSpeciesOf dist)
      (tpcOf ps treePct))).length ≠ 0 := by
    rw [(hEnv.1 _).length_eq]
    exact fun h => buildPool_ne_nil _ _ ht (tpcOf_nonneg ps treePct hpct0)
      (List.length_eq_zero.mp h)
  have hsp : (e.shuffleShrubs (buildPool (shrubSpeciesOf dist)
      ((ps.length : ℤ) - tpcOf ps treePct))).length ≠ 0 := by
    rw [(hEnv.2.1 _).length_eq]
    exact fun h => buildPool_ne_nil _ _ hs
      (by have := tpcOf_le_len ps treePct hpct1; omega)
      (List.length_eq_zero.mp h)
  unfold attribute_species_to_points_with_clusters
  simp only [if_neg h3]
  rw [if_neg fun hcon => hsp hcon.1, if_neg fun hcon => htp hcon.1]
  rfl

/-- Inversion: a committed allocator result can only be the gatter fold's
trace — every `.ok` branch of the function returns that one value. -/
theorem alloc_res_eq (e : Env) (ps : List Pos) (dist : List SpeciesEntry)
    (treePct shrubPct : ℚ) (rows minC maxC : ℕ) (asgs : List Asg)
    (h : attribute_species_to_points_with_clusters e ps dist treePct shrubPct
      rows minC maxC = .ok asgs) :
    asgs = (assignGattersFold (cfgOf e ps dist treePct rows minC maxC) ps
      ((tpcOf ps treePct).fdiv (gattersOf ps).length) (gattersOf ps)
      ((tpcOf ps treePct).fmod (gattersOf ps).length)
      { shrubCount := 0, treeCount := 0, clusterId := 1, rix := 0,
        asg := [] }).asg := by
  unfold attribute_species_to_points_with_clusters at h
  by_cases h3 : (firstOccs (ps.map (·.gatter))).length = 0
  · simp only [if_pos h3] at h
    exact absurd h (by simp)
  · simp only [if_neg h3] at h
    split at h
    · exact absurd h (by simp)
    · split at h
      · exact absurd h (by simp)
      · injection h with h
        exact h.symm

theorem cfgOk_cfgOf (e : Env) (ps : List Pos) (dist : List SpeciesEntry)
    (treePct : ℚ) (rows minC maxC : ℕ) (hRand : RandintOk e)
    (hmin : 1 ≤ minC) (hminmax : minC ≤ maxC) :
    CfgOk (cfgOf e ps dist treePct rows minC maxC) :=
  ⟨hmin, hminmax, hRand⟩

/-- The positions of one gatter, across the shuffled rows, are a permutation
of the gatter's positions in layer order. -/
theorem gatherRows_perm (c : Cfg) (hEnv : EnvPerm c.env) (ps : List Pos)
    (g : ℕ) (hrows : ∀ p ∈ ps, p.row < c.rows) :
    ((List.range c.rows).flatMap fun r =>
        c.env.shuffleRow (pidsOfGatterRow ps g r)).Perm
      ((ps.filter fun p => p.gatter = g).map Pos.pid) := by
  have h1 : ((List.range c.rows).flatMap fun r =>
      c.env.shuffleRow (pidsOfGatterRow ps g r)).Perm
      ((List.range c.rows).flatMap fun r => pidsOfGatterRow ps g r) :=
    flatMap_perm_of_perm fun r _ => hEnv.2.2 _
  have h2 : ((List.range c.rows).flatMap fun r => pidsOfGatterRow ps g r) =
      ((List.range c.rows).flatMap fun r =>
        (ps.filter fun p => p.gatter = g).filter fun p => p.row = r).map
        Pos.pid := by
    rw [List.map_flatMap]
    rfl
  have h3 : ((List.range c.rows).flatMap fun r =>
      (ps.filter fun p => p.gatter = g).filter fun p => p.row = r).Perm
      (ps.filter fun p => p.gatter = g) :=
    partition_by_key_perm Pos.row (List.range c.rows) _
      (List.nodup_range c.rows)
      (fun x hx => List.mem_range.mpr (hrows x (List.mem_of_mem_filter hx)))
  refine h1.trans ?_
  rw [h2]
  exact h3.map Pos.pid

/-- The full trace's written ids form a permutation of the position ids:
every position is written exactly once. -/
theorem alloc_pids_perm (c : Cfg) (hc : CfgOk c) (hEnv : EnvPerm c.env)
    (ps : List Pos) (tpg extra : ℤ) (st : AllocSt) (hst : st.asg = [])
    (hrows : ∀ p ∈ ps, p.row < c.rows) :
    (((assignGattersFold c ps tpg (gattersOf ps) extra st).asg).map
      Asg.pid).Perm (ps.map Pos.pid) := by
  rw [assignGattersFold_pids c hc ps tpg (gattersOf ps) extra st, hst]
  rw [List.map_nil, List.nil_append]
  have h4 : ((gattersOf ps).flatMap fun g => (List.range c.rows).flatMap
      fun r => c.env.shuffleRow (pidsOfGatterRow ps g r)).Perm
      ((gattersOf ps).flatMap fun g =>
        (ps.filter fun p => p.gatter = g).map Pos.pid) :=
    flatMap_perm_of_perm fun g _ => gatherRows_perm c hEnv ps g hrows
  have h5 : ((gattersOf ps).flatMap fun g =>
      (ps.filter fun p => p.gatter = g).map Pos.pid) =
      ((gattersOf ps).flatMap fun g =>
        ps.filter fun p => p.gatter = g).map Pos.pid := by
    rw [List.map_flatMap]
  have h6 : ((gattersOf ps).flatMap fun g =>
      ps.filter fun p => p.gatter = g).Perm ps :=
    partition_by_key_perm Pos.gatter (gattersOf ps) ps (gattersOf_nodup ps)
      (fun p hp => mem_gattersOf hp)
  refine h4.trans ?_
  rw [h5]
  exact h6.map Pos.pid

/-- If a position's id was written at all, `applyAsg` replays its last write,
which is a member of the trace. -/
theorem applyAsg_of_covered (asgs : List Asg) (p : Pos)
    (hmem : p.pid ∈ asgs.map Asg.pid) :
    ∃ a, a ∈ asgs ∧ a.pid = p.pid ∧
      applyAsg asgs p =
        { p with species := some a.species, ptype := a.ptype,
                 clusterId := a.clusterId } := by
  obtain ⟨a0, ha0, hpid0⟩ := List.mem_map.mp hmem
  have hne : (asgs.filter fun x => x.pid = p.pid) ≠ [] := by
    intro h
    have hin : a0 ∈ asgs.filter fun x => x.pid = p.pid :=
      List.mem_filter.mpr ⟨ha0, by simpa using hpid0⟩
    rw [h] at hin
    simp at hin
  have hlast := List.getLast?_eq_getLast_of_ne_nil hne
  have hmem' : (asgs.filter fun x => x.pid = p.pid).getLast hne ∈
      asgs.filter fun x => x.pid = p.pid := List.getLast_mem hne
  refine ⟨(asgs.filter fun x => x.pid = p.pid).getLast hne,
    List.mem_of_mem_filter hmem', by simpa using List.of_mem_filter hmem', ?_⟩
  unfold applyAsg
  rw [hlast]

/-! ### Claims C1 and C2 — total assignment and shrub-only edge rows. -/

/-- Claim C1: a run of the policy-D allocator on a non-empty position
collection (all rows in range) with non-empty tree and shrub species lists,
a valid injected random source, positive cluster bounds and a percentage in
[0, 100] (outside which the Python run would crash on an empty pool)
commits, writes every position's id exactly once (the written ids are a
permutation of the position ids), and leaves every position with a non-null
species and a type that is not "unassigned". -/
theorem C1_policyD_assigns_every_position
    (e : Env) (ps : List Pos) (dist : List SpeciesEntry)
    (treePct shrubPct : ℚ) (rows minC maxC : ℕ)
    (hEnv : EnvPerm e) (hRand : RandintOk e)
    (hmin : 1 ≤ minC) (hminmax : minC ≤ maxC)
    (hps : ps ≠ []) (hrows : ∀ p ∈ ps, p.row < rows)
    (ht : treeSpeciesOf dist ≠ []) (hs : shrubSpeciesOf dist ≠ [])
    (hpct0 : 0 ≤ treePct) (hpct1 : treePct ≤ 100) :
    ∃ asgs,
      attribute_species_to_points_with_clusters e ps dist treePct shrubPct
        rows minC maxC = .ok asgs ∧
      (asgs.map Asg.pid).Perm (ps.map Pos.pid) ∧
      ∀ q ∈ applyAsgs asgs ps, q.species ≠ none ∧ q.ptype ≠ "unassigned" := by
  have hcfg := cfgOk_cfgOf e ps dist treePct rows minC maxC hRand hmin hminmax
  have hperm := alloc_pids_perm (cfgOf e ps dist treePct rows minC maxC)
    hcfg hEnv ps ((tpcOf ps treePct).fdiv (gattersOf ps).length)
    ((tpcOf ps treePct).fmod (gattersOf ps).length)
    { shrubCount := 0, treeCount := 0, clusterId := 1, rix := 0, asg := [] }
    rfl hrows
  refine ⟨_, alloc_ok e ps dist treePct shrubPct rows minC maxC hEnv ht hs
    hps hpct0 hpct1, hperm, ?_⟩
  intro q hq
  obtain ⟨p, hp, rfl⟩ := List.mem_map.mp hq
  have hpid : p.pid ∈ ((assignGattersFold
      (cfgOf e ps dist treePct rows minC maxC) ps
      ((tpcOf ps treePct).fdiv (gattersOf ps).length) (gattersOf ps)
      ((tpcOf ps treePct).fmod (gattersOf ps).length)
      { shrubCount := 0, treeCount := 0, clusterId := 1, rix := 0,
        asg := [] }).asg).map Asg.pid :=
    hperm.mem_iff.mpr (List.mem_map_of_mem Pos.pid hp)
  obtain ⟨a, hain, hapid, happ⟩ := applyAsg_of_covered _ p hpid
  rw [happ]
  have hty : a.ptype = "shrub" ∨ a.ptype = "tree" := by
    rcases assignGattersFold_prov (cfgOf e ps dist treePct rows minC maxC)
      ps _ _ _ _ a hain with h | h
    · simp at h
    · obtain ⟨g, _, r, _, _, hty⟩ := h
      rcases hty with h' | h'
      · exact .inl h'
      · exact .inr h'.1
  refine ⟨by simp, ?_⟩
  rcases hty with h' | h' <;> simp [h']

/-- Claim C2: under the policy-D allocator (same validity hypotheses as C1,
plus pairwise-distinct feature ids), a position on row 0 or row
`rows - 1` never ends with type "tree": trees are only ever written to
inner-row positions, and every edge-row position is rewritten by a shrub
cluster. -/
theorem C2_edge_rows_never_tree
    (e : Env) (ps : List Pos) (dist : List SpeciesEntry)
    (treePct shrubPct : ℚ) (rows minC maxC : ℕ)
    (hEnv : EnvPerm e) (hRand : RandintOk e)
    (hmin : 1 ≤ minC) (hminmax : minC ≤ maxC)
    (hps : ps ≠ []) (hrows : ∀ p ∈ ps, p.row < rows)
    (ht : treeSpeciesOf dist ≠ []) (hs : shrubSpeciesOf dist ≠ [])
    (hnd : (ps.map Pos.pid).Nodup) :
    ∀ asgs,
      attribute_species_to_points_with_clusters e ps dist treePct shrubPct
        rows minC maxC = .ok asgs →
      ∀ p ∈ ps, (p.row = 0 ∨ p.row = rows - 1) →
        (applyAsg asgs p).ptype ≠ "tree" := by
  intro asgs hok p hp hedge
  obtain rfl :=
    alloc_res_eq e ps dist treePct shrubPct rows minC maxC asgs hok
  have hcfg := cfgOk_cfgOf e ps dist treePct rows minC maxC hRand hmin hminmax
  have hperm := alloc_pids_perm (cfgOf e ps dist treePct rows minC maxC)
    hcfg hEnv ps ((tpcOf ps treePct).fdiv (gattersOf ps).length)
    ((tpcOf ps treePct).fmod (gattersOf ps).length)
    { shrubCount := 0, treeCount := 0, clusterId := 1, rix := 0, asg := [] }
    rfl hrows
  have hpid : p.pid ∈ ((assignGattersFold
      (cfgOf e ps dist treePct rows minC maxC) ps
      ((tpcOf ps treePct).fdiv (gattersOf ps).length) (gattersOf ps)
      ((tpcOf ps treePct).fmod (gattersOf ps).length)
      { shrubCount := 0, treeCount := 0, clusterId := 1, rix := 0,
        asg := [] }).asg).map Asg.pid :=
    hperm.mem_iff.mpr (List.mem_map_of_mem Pos.pid hp)
  obtain ⟨a, hain, hapid, happ⟩ := applyAsg_of_covered _ p hpid
  rw [happ]
  simp only [ne_eq]
  intro htree
  rcases assignGattersFold_prov (cfgOf e ps dist treePct rows minC maxC)
    ps _ _ _ _ a hain with h | h
  · simp at h
  · obtain ⟨g, -, r, -, hmem, hty⟩ := h
    rcases hty with h' | h'
    · rw [htree] at h'
      exact absurd h' (by decide)
    · obtain ⟨-, hinner, -⟩ := h'
      have hmem' : a.pid ∈ pidsOfGatterRow ps g r :=
        (hEnv.2.2 (pidsOfGatterRow ps g r)).mem_iff.mp hmem
      obtain ⟨q, hqmem, hqpid⟩ := List.mem_map.mp hmem'
      have hqps : q ∈ ps :=
        List.mem_of_mem_filter (List.mem_of_mem_filter hqmem)
      have hqrow : q.row = r := by
        simpa using List.of_mem_filter hqmem
      have hqp : q = p :=
        List.inj_on_of_nodup_map hnd hqps hp (by rw [hqpid, hapid])
      apply hinner
      rw [← hqrow, hqp]
      exact hedge

/-! ### Claims C3, C7, C10 — tree shares, cluster sizes, row-loop
termination. -/

theorem envEx_perm : EnvPerm envEx :=
  ⟨fun l => List.Perm.refl l, fun l => List.Perm.refl l,
    fun l => List.Perm.refl l⟩

theorem envEx_randOk : RandintOk envEx :=
  fun lo _ _ h => ⟨le_refl lo, h⟩

unseal Rat.add Rat.sub Rat.mul Rat.inv in
/-- Witness for C1: six positions over three rows in one gatter, one tree and
one shrub species, `tree_percentage = 30`: the run commits, writes every
position id once, and the edge position 1 ends assigned. -/
theorem C1_policyD_assigns_every_position_witness :
    (asgsEx.map Asg.pid).Perm (psEx.map Pos.pid) ∧
    (applyAsg asgsEx (mkP 1 0 1)).species ≠ none ∧
    (applyAsg asgsEx (mkP 1 0 1)).ptype ≠ "unassigned" := by
  obtain ⟨asgs, h1, h2, h3⟩ :=
    C1_policyD_assigns_every_position envEx psEx distEx 30 70 3 3 5
      envEx_perm envEx_randOk (by decide) (by decide) (List.cons_ne_nil _ _)
      (by decide) (by decide) (by decide) (by decide) (by decide)
  have h0 : attribute_species_to_points_with_clusters envEx psEx distEx 30 70
      3 3 5 = .ok asgsEx := by rfl
  rw [h0] at h1
  injection h1 with h1
  subst h1
  refine ⟨h2, h3 _ ?_⟩
  show _ ∈ psEx.map (applyAsg asgsEx)
  exact List.mem_map_of_mem _ (by decide)

unseal Rat.add Rat.sub Rat.mul Rat.inv in
/-- Witness for C2: in the same concrete run, the committed trace leaves the
row-0 position 1 with a type other than "tree". -/
theorem C2_edge_rows_never_tree_witness :
    (applyAsg asgsEx (mkP 1 0 1)).ptype ≠ "tree" :=
  C2_edge_rows_never_tree envEx psEx distEx 30 70 3 3 5
    envEx_perm envEx_randOk (by decide) (by decide) (List.cons_ne_nil _ _)
    (by decide) (by decide) (by decide) (by decide)
    asgsEx (by rfl) (mkP 1 0 1) (by decide) (Or.inl rfl)

theorem cfgEx_ok : CfgOk cfgEx :=
  ⟨by decide, by decide, fun lo _ _ h => ⟨le_refl lo, h⟩⟩

theorem st0Ex_clusters : ClustersOk cfgEx st0Ex := by
  refine ⟨le_refl 1, ?_, ?_⟩
  · intro a ha
    simp [st0Ex] at ha
  · intro j h1 h2
    simp only [st0Ex] at h2
    omega

theorem innerLenSum_eq_innerCap (c : Cfg) (hEnv : EnvPerm c.env)
    (ps : List Pos) (g : ℕ) :
    innerLenSum c (pidsOfGatterRow ps g) (List.range c.rows) =
      innerCap ps c.rows g := by
  unfold innerLenSum innerCap
  congr 1
  apply List.map_congr_left
  intro r _
  by_cases hr : r = 0 ∨ r = c.rows - 1
  · rw [if_pos hr, if_pos hr]
  · rw [if_neg hr, if_neg hr, (hEnv.2.2 (pidsOfGatterRow ps g r)).length_eq]

unseal Rat.add Rat.sub Rat.mul Rat.inv in
/-- Claim C3 counterexample: with one gatter whose two rows are both edge
rows (`rows = 2`), the gatter has no inner-row capacity, so it receives 0
trees although its exact share under `tree_percentage = 50` on 4 positions
is 2: the per-group tree count does not always equal the group's share. -/
theorem C3_counterexample_group_tree_share :
    attribute_species_to_points_with_clusters envEx psC3 distEx 50 50 2 3 5 =
      .ok asgsC3 ∧
    (countType asgsC3 "tree" : ℤ) ≠
      shareOf (tpcOf psC3 50) (gattersOf psC3).length 0 ∧
    countType asgsC3 "tree" = 0 ∧
    shareOf (tpcOf psC3 50) (gattersOf psC3).length 0 = 2 := by
  refine ⟨by rfl, by decide, by decide, by decide⟩

/-- Claim C3 as amended: under the validity hypotheses of C1 and provided
every gatter's inner-row capacity is at least its share, the trace splits
into one segment per gatter in processing order; each segment writes exactly
the gatter's positions and contains exactly `shareOf` tree writes (the share
is `treesPerGroup = totalTreeQuota fdiv groupCount` plus one extra tree for
the first `totalTreeQuota fmod groupCount` groups); and the shares over all
groups sum to exactly `totalTreeQuota`.  Without the capacity proviso the
count can fall short, as the counterexample shows; the sum identity is
unconditional. -/
theorem C3_group_tree_share_amended
    (e : Env) (ps : List Pos) (dist : List SpeciesEntry)
    (treePct shrubPct : ℚ) (rows minC maxC : ℕ)
    (hEnv : EnvPerm e) (hRand : RandintOk e)
    (hmin : 1 ≤ minC) (hminmax : minC ≤ maxC)
    (hps : ps ≠ []) (hrows : ∀ p ∈ ps, p.row < rows)
    (ht : treeSpeciesOf dist ≠ []) (hs : shrubSpeciesOf dist ≠ [])
    (hpct0 : 0 ≤ treePct) (hpct1 : treePct ≤ 100)
    (hcap : ∀ k, ∀ hk : k < (gattersOf ps).length,
      shareOf (tpcOf ps treePct) (gattersOf ps).length k ≤
        (innerCap ps rows ((gattersOf ps).get ⟨k, hk⟩) : ℤ)) :
    ∃ (asgs : List Asg) (segs : List (List Asg)),
      attribute_species_to_points_with_clusters e ps dist treePct shrubPct
        rows minC maxC = .ok asgs ∧
      asgs = segs.flatMap id ∧
      segs.length = (gattersOf ps).length ∧
      (∀ k, ∀ hk : k < segs.length, ∀ hk' : k < (gattersOf ps).length,
        ((segs.get ⟨k, hk⟩).map Asg.pid).Perm
          ((ps.filter fun p =>
            p.gatter = (gattersOf ps).get ⟨k, hk'⟩).map Pos.pid) ∧
        (countType (segs.get ⟨k, hk⟩) "tree" : ℤ) =
          shareOf (tpcOf ps treePct) (gattersOf ps).length k) ∧
      (List.map (fun k : ℕ =>
          shareOf (tpcOf ps treePct) (gattersOf ps).length k)
        (List.range (gattersOf ps).length)).sum = tpcOf ps treePct := by
  have hcfg := cfgOk_cfgOf e ps dist treePct rows minC maxC hRand hmin hminmax
  have htpc0 : 0 ≤ tpcOf ps treePct := by
    unfold tpcOf pyInt
    have harg : 0 ≤ (ps.length : ℚ) * (treePct / 100) :=
      mul_nonneg (by positivity) (div_nonneg hpct0 (by norm_num))
    rw [if_pos harg]
    exact Int.floor_nonneg.mpr harg
  have hgc : 0 < (gattersOf ps).length :=
    Nat.pos_of_ne_zero (gattersOf_ne_nil hps)
  have hgcZ : (0 : ℤ) < ((gattersOf ps).length : ℤ) := by exact_mod_cast hgc
  have htpg : 0 ≤ (tpcOf ps treePct).fdiv (gattersOf ps).length :=
    Int.fdiv_nonneg htpc0 (by omega)
  have hextra0 : 0 ≤ (tpcOf ps treePct).fmod (gattersOf ps).length :=
    Int.fmod_nonneg htpc0 (by omega)
  have hextralt : (tpcOf ps treePct).fmod (gattersOf ps).length <
      ((gattersOf ps).length : ℤ) := Int.fmod_lt_of_pos _ hgcZ
  have hshsum : sharesSum ((tpcOf ps treePct).fdiv (gattersOf ps).length)
      ((tpcOf ps treePct).fmod (gattersOf ps).length)
      (gattersOf ps).length = tpcOf ps treePct := by
    rw [sharesSum_eval _ hextra0, min_eq_left (le_of_lt hextralt)]
    exact Int.fdiv_add_fmod (tpcOf ps treePct) ((gattersOf ps).length : ℤ)
  have hsegs := assignGattersFold_segs
    (cfgOf e ps dist treePct rows minC maxC) hcfg ps
    ((tpcOf ps treePct).fdiv (gattersOf ps).length) htpg
    (gattersOf ps) ((tpcOf ps treePct).fmod (gattersOf ps).length)
    { shrubCount := 0, treeCount := 0, clusterId := 1, rix := 0, asg := [] }
    hextra0
    (by
      show (0 : ℤ) + _ ≤ _
      rw [hshsum]
      have hh : (cfgOf e ps dist treePct rows minC maxC).tpc
          = tpcOf ps treePct := rfl
      rw [hh]
      omega)
    (by
      intro k hk
      have h := hcap k hk
      rw [innerLenSum_eq_innerCap (cfgOf e ps dist treePct rows minC maxC)
        hEnv ps ((gattersOf ps).get ⟨k, hk⟩)]
      exact h)
  obtain ⟨segs, hs1, hs2, hs3⟩ := hsegs
  refine ⟨(assignGattersFold (cfgOf e ps dist treePct rows minC maxC) ps
      ((tpcOf ps treePct).fdiv (gattersOf ps).length) (gattersOf ps)
      ((tpcOf ps treePct).fmod (gattersOf ps).length)
      { shrubCount := 0, treeCount := 0, clusterId := 1, rix := 0,
        asg := [] }).asg, segs,
    alloc_ok e ps dist treePct shrubPct rows minC maxC hEnv ht hs hps
      hpct0 hpct1,
    ?_, hs2, ?_, ?_⟩
  · rw [hs1]
    simp
  · intro k hk hk'
    obtain ⟨hp, htr⟩ := hs3 k hk hk'
    refine ⟨?_, htr⟩
    rw [hp]
    exact gatherRows_perm (cfgOf e ps dist treePct rows minC maxC) hEnv ps
      ((gattersOf ps).get ⟨k, hk'⟩) hrows
  · exact hshsum

unseal Rat.add Rat.sub Rat.mul Rat.inv in
/-- Witness for C3 (amended): one gatter, three rows, six positions,
`tree_percentage = 30`; the share is 1 and the inner row has capacity 2. -/
theorem C3_group_tree_share_amended_witness :
    ∃ (asgs : List Asg) (segs : List (List Asg)),
      attribute_species_to_points_with_clusters envEx psEx distEx 30 70
        3 3 5 = .ok asgs ∧
      asgs = segs.flatMap id ∧
      segs.length = (gattersOf psEx).length ∧
      (∀ k, ∀ hk : k < segs.length, ∀ hk' : k < (gattersOf psEx).length,
        ((segs.get ⟨k, hk⟩).map Asg.pid).Perm
          ((psEx.filter fun p =>
            p.gatter = (gattersOf psEx).get ⟨k, hk'⟩).map Pos.pid) ∧
        (countType (segs.get ⟨k, hk⟩) "tree" : ℤ) =
          shareOf (tpcOf psEx 30) (gattersOf psEx).length k) ∧
      (List.map (fun k : ℕ =>
          shareOf (tpcOf psEx 30) (gattersOf psEx).length k)
        (List.range (gattersOf psEx).length)).sum = tpcOf psEx 30 :=
  C3_group_tree_share_amended envEx psEx distEx 30 70 3 3 5
    envEx_perm envEx_randOk (by decide) (by decide) (by decide) (by decide)
    (by decide) (by decide) (by decide) (by decide) (by decide)

/-- Claim C7: every shrub cluster the policy-D allocator creates holds
between 1 and `maxClusterSize` positions (globally, over a whole committed
run), and within the processing of one row every cluster except the last one
opened in that row holds at least `minClusterSize` positions — the final
cluster of a row may be shorter because fewer unassigned positions remain. -/
theorem C7_cluster_size_bounds :
    (∀ c : Cfg, CfgOk c → ∀ (row : ℕ) (points : List ℕ) (gtc : ℤ)
      (st : AllocSt), ClustersOk c st →
      (∀ j, 1 ≤ j →
        j < (assignRowLoop c row points points.length 0 gtc st).2.clusterId →
        1 ≤ clusterSize
            (assignRowLoop c row points points.length 0 gtc st).2.asg j ∧
        clusterSize
            (assignRowLoop c row points points.length 0 gtc st).2.asg j ≤
          c.maxC) ∧
      (∀ j, st.clusterId ≤ j →
        j + 1 < (assignRowLoop c row points points.length 0 gtc st).2.clusterId →
        c.minC ≤ clusterSize
          (assignRowLoop c row points points.length 0 gtc st).2.asg j)) ∧
    (∀ (e : Env) (ps : List Pos) (dist : List SpeciesEntry)
      (treePct shrubPct : ℚ) (rows minC maxC : ℕ),
      RandintOk e → 1 ≤ minC → minC ≤ maxC →
      treeSpeciesOf dist ≠ [] → shrubSpeciesOf dist ≠ [] → ps ≠ [] →
      ∀ asgs, attribute_species_to_points_with_clusters e ps dist treePct
          shrubPct rows minC maxC = .ok asgs →
        ∀ a ∈ asgs, 1 ≤ a.clusterId →
          1 ≤ clusterSize asgs a.clusterId ∧
            clusterSize asgs a.clusterId ≤ maxC) := by
  constructor
  · intro c hc row points gtc st hok
    have h := assignRowLoop_clusters c hc row points points.length 0 gtc st hok
    exact ⟨fun j hj1 hj2 => h.1.2.2 j hj1 hj2, h.2.2.2⟩
  · intro e ps dist treePct shrubPct rows minC maxC hRand hmin hminmax ht hs
      hps asgs hok a hain hcid
    obtain rfl :=
      alloc_res_eq e ps dist treePct shrubPct rows minC maxC asgs hok
    have hcfg := cfgOk_cfgOf e ps dist treePct rows minC maxC hRand hmin hminmax
    have hst0 : ClustersOk (cfgOf e ps dist treePct rows minC maxC)
        { shrubCount := 0, treeCount := 0, clusterId := 1, rix := 0,
          asg := [] } := by
      refine ⟨le_refl 1, ?_, ?_⟩
      · intro x hx
        simp at hx
      · intro j h1 h2
        simp only at h2
        omega
    have hfin := assignGattersFold_clusters
      (cfgOf e ps dist treePct rows minC maxC) hcfg ps
      ((tpcOf ps treePct).fdiv (gattersOf ps).length) (gattersOf ps)
      ((tpcOf ps treePct).fmod (gattersOf ps).length) _ hst0
    exact hfin.2.2 a.clusterId hcid (hfin.2.1 a hain)

unseal Rat.add Rat.sub Rat.mul Rat.inv in
/-- Witness for C7: the single row-0 cluster of a concrete row run has size
2 (within `[1, 5]`), and in the committed run on `psEx` the cluster with id
1 has size in `[1, 5]`. -/
theorem C7_cluster_size_bounds_witness :
    (1 ≤ clusterSize (assignRowLoop cfgEx 0 [3, 4] 2 0 1 st0Ex).2.asg 1 ∧
      clusterSize (assignRowLoop cfgEx 0 [3, 4] 2 0 1 st0Ex).2.asg 1 ≤
        cfgEx.maxC) ∧
    (1 ≤ clusterSize asgsEx 1 ∧ clusterSize asgsEx 1 ≤ 5) := by
  constructor
  · exact (C7_cluster_size_bounds.1 cfgEx cfgEx_ok 0 [3, 4] 1 st0Ex
      st0Ex_clusters).1 1 (by decide) (by decide)
  · exact C7_cluster_size_bounds.2 envEx psEx distEx 30 70 3 3 5
      envEx_randOk (by decide) (by decide) (by decide) (by decide) (by decide)
      asgsEx (by rfl)
      { pid := 1, species := "Rosa canina", ptype := "shrub", clusterId := 1 }
      (by decide) (by decide)

/-- Claim C10: with `1 ≤ minClusterSize ≤ maxClusterSize` and valid draws,
each shrub-cluster call on a row with positions remaining consumes at least
one and at most the remaining number of positions; consequently the row loop
run with fuel `len(row_points)` already reaches the fixed point (any larger
fuel gives the same result — the `while` loop terminates) and visits every
position of the row exactly once, in order. -/
theorem C10_row_loop_terminates_covers (c : Cfg) (hc : CfgOk c) (row : ℕ)
    (points : List ℕ) (gtc : ℤ) (st : AllocSt) :
    (∀ (i : ℕ) (st' : AllocSt), i < points.length →
      1 ≤ (assign_shrub_cluster c points i st').1 ∧
      (assign_shrub_cluster c points i st').1 ≤ points.length - i) ∧
    ((assignRowLoop c row points points.length 0 gtc st).2.asg).map Asg.pid =
      st.asg.map Asg.pid ++ points ∧
    (∀ fuel, points.length ≤ fuel →
      assignRowLoop c row points fuel 0 gtc st =
        assignRowLoop c row points points.length 0 gtc st) := by
  refine ⟨?_, ?_, ?_⟩
  · intro i st' hi
    exact ⟨le_min (hc.draw_ge_one st'.rix) (by omega), min_le_right _ _⟩
  · have h := assignRowLoop_asg c hc row points points.length 0 gtc st
      (by omega)
    simpa using h
  · intro fuel hfuel
    exact assignRowLoop_fuel c hc row points fuel points.length 0 gtc st
      (by omega) (by omega)

/-- Witness for C10: a concrete two-position row is fully visited with fuel
2, and fuel 5 gives the same result. -/
theorem C10_row_loop_terminates_covers_witness :
    (((assignRowLoop cfgEx 1 [3, 4] 2 0 1 st0Ex).2.asg).map Asg.pid =
      st0Ex.asg.map Asg.pid ++ [3, 4]) ∧
    assignRowLoop cfgEx 1 [3, 4] 5 0 1 st0Ex =
      assignRowLoop cfgEx 1 [3, 4] 2 0 1 st0Ex :=
  ⟨(C10_row_loop_terminates_covers cfgEx cfgEx_ok 1 [3, 4] 1 st0Ex).2.1,
   (C10_row_loop_terminates_covers cfgEx cfgEx_ok 1 [3, 4] 1 st0Ex).2.2 5
     (by decide)⟩

/-! ### Claim C4 — position counts on multipart features. -/

unseal Rat.add Rat.sub Rat.mul Rat.inv in
/-- Claim C4 (code bug, supporting evaluation): on one feature with two parts
of lengths 5/2 and 7/2 and `plant_spacing = 1`, `rows = 1`, the generator
emits 12 positions (two identical sweeps of the full 6-unit geometry at
distances 0..5, spilling past the first part's 5/2 length), while the spec's
per-part formula `Σ floor(partLength/spacing) + 1` predicts 7: the loop
recomputes `line_length = geom.length()` for every part and never uses the
part (`line`) itself. -/
theorem C4_multipart_count_eval :
    (generate_points [geomC4] 1 0 1).length = 12 ∧
    (generate_points [geomC4] 1 0 1).map Pos.dist =
      [0, 1, 2, 3, 4, 5, 0, 1, 2, 3, 4, 5] ∧
    specPredictedCount [geomC4] 1 1 = 7 ∧ (12 : ℕ) ≠ 7 := by
  refine ⟨by decide, by decide, by decide, by decide⟩

/-! ### Claim C5 — offset direction of the final position. -/

unseal Rat.add Rat.sub Rat.mul Rat.inv in
/-- Claim C5 counterexample: the claim quantifies over all three generator
variants, but in the two legacy scripts the final position of a part is
emitted with the fixed default angle 90, not with the direction from the
previous point to the current point (which here would be the distinct datum
`fromPoints (interpolate 0) (interpolate 1)`): on a one-part line of length 2
along the y-axis with spacing 1, the second (final) position's offset datum
is `fixedAngle 90`. -/
theorem C5_counterexample_legacy_fixed_angle :
    (legacy_generate_points [geomC5] 1 0 1).map Pos.odir =
      [.fromPoints (0, 0) (0, 1), .fixedAngle 90] ∧
    OffsetDir.fixedAngle 90 ≠
      .fromPoints (geomC5.interpolate (1 - 1)) (geomC5.interpolate 1) := by
  refine ⟨by decide, by decide⟩

/-- Claim C5 as amended: in the species variant every position's offset
direction comes from two interpolated centerline points — from `d` and
`d + plant_spacing` when the lookahead stays below the length, and from
`d - plant_spacing` and `d` for the final position — never from a fixed
default angle; in the two legacy variants the final position (lookahead at or
past the length) instead uses the fixed default angle 90. -/
theorem C5_offset_direction_amended :
    (∀ (g : Geom) (s : ℚ) (rows row gatter fuel : ℕ) (d : ℚ) (idc : ℕ) (p : Pos),
      p ∈ genRowLoop g s rows row gatter fuel d idc →
      (p.dist + s < g.length →
        p.odir = .fromPoints (g.interpolate p.dist) (g.interpolate (p.dist + s))) ∧
      (g.length ≤ p.dist + s →
        p.odir = .fromPoints (g.interpolate (p.dist - s)) (g.interpolate p.dist))) ∧
    (∀ (feats : List Geom) (rows : ℕ) (rsp s : ℚ) (p : Pos),
      p ∈ generate_points feats rows rsp s →
      ∀ a, p.odir ≠ .fixedAngle a) ∧
    (∀ (g : Geom) (s : ℚ) (fuel : ℕ) (d : ℚ) (idc : ℕ) (p : Pos),
      p ∈ legacyGenRowLoop g s fuel d idc →
      g.length ≤ p.dist + s → p.odir = .fixedAngle 90) := by
  refine ⟨?_, ?_, ?_⟩
  · intro g s rows row gatter fuel d idc p hp
    obtain ⟨idc', d', rfl⟩ := mem_genRowLoop g s rows row gatter fuel d idc p hp
    constructor
    · intro hlt
      simp only [mkGenPos] at hlt ⊢
      rw [if_pos hlt]
    · intro hge
      simp only [mkGenPos] at hge ⊢
      rw [if_neg (not_lt.mpr hge)]
  · intro feats rows rsp s p hp a
    obtain ⟨g, r, fuel, d, idc', gatter, hmem⟩ :=
      mem_genFeatsFold s rows feats 1 1 p hp
    obtain ⟨idc'', d'', rfl⟩ := mem_genRowLoop g s rows r gatter fuel d idc' p hmem
    simp only [mkGenPos]
    split <;> simp
  · intro g s fuel
    induction fuel with
    | zero => intro d idc p hp; simp [legacyGenRowLoop] at hp
    | succ fuel ih =>
      intro d idc p hp hge
      rw [legacyGenRowLoop] at hp
      by_cases hdL : d < g.length
      · rw [if_pos hdL] at hp
        rcases List.mem_cons.mp hp with h | h
        · subst h
          simp only [mkLegacyPos] at hge ⊢
          rw [if_neg (not_lt.mpr hge)]
        · exact ih (d + s) (idc + 1) p h hge
      · rw [if_neg hdL] at hp
        simp at hp

unseal Rat.add Rat.sub Rat.mul Rat.inv in
/-- Witness for C5: concrete instances of all three conjuncts.  On the
length-2 line with spacing 1: the species variant's first position (distance
0) looks ahead to distance 1; its second (final) position (distance 1) uses
the previous point at distance 0 and the current point; the legacy variant's
final position uses the fixed angle 90. -/
theorem C5_offset_direction_amended_witness :
    (mkGenPos geomC5 1 1 0 1 1 0 ∈ genRowLoop geomC5 1 1 0 1 2 0 1 ∧
      (mkGenPos geomC5 1 1 0 1 1 0).dist + 1 < geomC5.length ∧
      (mkGenPos geomC5 1 1 0 1 1 0).odir =
        .fromPoints (geomC5.interpolate 0) (geomC5.interpolate (0 + 1))) ∧
    (mkGenPos geomC5 1 1 0 1 2 1 ∈ genRowLoop geomC5 1 1 0 1 2 0 1 ∧
      geomC5.length ≤ (mkGenPos geomC5 1 1 0 1 2 1).dist + 1 ∧
      (mkGenPos geomC5 1 1 0 1 2 1).odir =
        .fromPoints (geomC5.interpolate (1 - 1)) (geomC5.interpolate 1)) ∧
    (mkLegacyPos geomC5 1 2 1 ∈ legacyGenRowLoop geomC5 1 2 0 1 ∧
      geomC5.length ≤ (mkLegacyPos geomC5 1 2 1).dist + 1 ∧
      (mkLegacyPos geomC5 1 2 1).odir = .fixedAngle 90) := by
  refine ⟨⟨by decide, by decide, ?_⟩, ⟨by decide, by decide, ?_⟩, ⟨by decide, by decide, ?_⟩⟩
  · exact (C5_offset_direction_amended.1 geomC5 1 1 0 1 2 0 1 _ (by decide)).1
      (by decide)
  · exact (C5_offset_direction_amended.1 geomC5 1 1 0 1 2 0 1 _ (by decide)).2
      (by decide)
  · exact C5_offset_direction_amended.2.2 geomC5 1 2 0 1 _ (by decide) (by decide)

/-! ### Claim C6 — group id increments. -/

unseal Rat.add Rat.sub Rat.mul Rat.inv in
/-- Claim C6 counterexample: `gatter_counter += 1` sits inside the
`for line in lines:` loop, so it increments once per part, not once per
feature: the single two-part feature `geomTwoParts` yields positions with
gatter ids `[1, 1, 2, 2]` — two distinct group ids within one feature. -/
theorem C6_counterexample_multipart_gatter :
    (generate_points [geomTwoParts] 1 0 1).map Pos.gatter = [1, 1, 2, 2] ∧
    ¬ ∀ p ∈ generate_points [geomTwoParts] 1 0 1,
        ∀ q ∈ generate_points [geomTwoParts] 1 0 1, p.gatter = q.gatter := by
  refine ⟨by decide, by decide⟩

/-- Claim C6 as amended: the generator increments the group id once per
polyline part (not once per feature).  For features whose geometry has a
single part the two notions coincide: the output decomposes into one segment
per feature, and every position of the i-th feature (0-indexed) carries
group id `i + 1`. -/
theorem C6_gatter_per_part_amended (feats : List Geom) (rows : ℕ)
    (rsp s : ℚ) (h1 : ∀ g ∈ feats, g.partLengths.length = 1) :
    ∃ segs : List (List Pos),
      generate_points feats rows rsp s = segs.flatMap id ∧
      segs.length = feats.length ∧
      ∀ i : ℕ, ∀ hi : i < segs.length,
        ∀ p ∈ segs.get ⟨i, hi⟩, p.gatter = i + 1 := by
  suffices h : ∀ (fs : List Geom) (idc gc : ℕ), (∀ g ∈ fs, g.partLengths.length = 1) →
      ∃ segs : List (List Pos),
        genFeatsFold s rows fs idc gc = segs.flatMap id ∧
        segs.length = fs.length ∧
        ∀ i : ℕ, ∀ hi : i < segs.length,
          ∀ p ∈ segs.get ⟨i, hi⟩, p.gatter = gc + i by
    obtain ⟨segs, he, hl, hg⟩ := h feats 1 1 h1
    refine ⟨segs, he, hl, ?_⟩
    intro i hi p hp
    rw [hg i hi p hp]
    omega
  intro fs
  induction fs with
  | nil =>
    intro idc gc _
    exact ⟨[], by simp [genFeatsFold], by simp, by simp⟩
  | cons g gs ih =>
    intro idc gc hall
    have hg1 : g.partLengths.length = 1 := hall g (by simp)
    obtain ⟨segs', he', hl', hg'⟩ :=
      ih (idc + (genPartsFold g s rows g.partLengths.length idc gc).length)
        (gc + g.partLengths.length) (fun x hx => hall x (by simp [hx]))
    refine ⟨genPartsFold g s rows g.partLengths.length idc gc :: segs', ?_, ?_, ?_⟩
    · rw [genFeatsFold, he']
      simp
    · simp [hl']
    · intro i hi p hp
      match i with
      | 0 =>
        simp only [List.get] at hp
        rw [hg1] at hp
        rw [genPartsFold] at hp
        rcases List.mem_append.mp hp with h | h
        · rw [mem_genRowsFold_gatter g s rows gc _ _ p h]
          omega
        · simp [genPartsFold] at h
      | i + 1 =>
        simp only [List.get] at hp
        have := hg' i (by simpa using Nat.lt_of_succ_lt_succ (by simpa using hi)) p hp
        rw [this, hg1]
        omega

unseal Rat.add Rat.sub Rat.mul Rat.inv in
/-- Witness for C6: two single-part features; the decomposition exists and
feature 0's positions carry gatter 1 (checked through the theorem). -/
theorem C6_gatter_per_part_amended_witness :
    (∀ g ∈ [geomC5, geomC5], g.partLengths.length = 1) ∧
    ∃ segs : List (List Pos),
      generate_points [geomC5, geomC5] 1 0 1 = segs.flatMap id ∧
      segs.length = 2 ∧
      ∀ i : ℕ, ∀ hi : i < segs.length,
        ∀ p ∈ segs.get ⟨i, hi⟩, p.gatter = i + 1 :=
  ⟨by decide, C6_gatter_per_part_amended [geomC5, geomC5] 1 0 1 (by decide)⟩

/-! ### Claim C8 — empty species list of a required type. -/

unseal Rat.add Rat.sub Rat.mul Rat.inv in
/-- Claim C8 (code bug, supporting evaluation): an empty required species
list is never detected or reported as a precondition error.  The pool
comprehension yields an empty pool silently (no division is evaluated);
then (a) with no shrub species, the first shrub cluster evaluates
`shrub_list[shrub_count % len(shrub_list)]` (line 120) and the run aborts
mid-allocation with an unhandled `ZeroDivisionError`; (b) with no tree
species and a reachable tree write, the indexing
`tree_list[tree_count % len(tree_list)]` (line 155) aborts the run the same
way; (c) with no tree species but no reachable tree write (here `rows = 2`,
so every row is an edge row and no tree is ever placed despite a positive
tree quota), the run commits successfully with no report at all.  In no
case is the missing required species list reported as a precondition
error. -/
theorem C8_empty_species_unguarded_eval :
    attribute_species_to_points_with_clusters envEx psEx distNoShrubs 30 70
        3 3 5 = .error .zeroDivision ∧
    attribute_species_to_points_with_clusters envEx psEx distNoTrees 30 70
        3 3 5 = .error .zeroDivision ∧
    attribute_species_to_points_with_clusters envEx psC3 distNoTrees 50 50
        2 3 5 = .ok asgsC3 := by
  refine ⟨by rfl, by rfl, by rfl⟩

/-! ### Claim C9 — stability of the species color map. -/

/-- Claim C9 (code bug, supporting evaluation): the color is
`seededDraws (hash name)` and CPython salts `hash` on strings per process, so
the claim "two invocations in separate program runs yield the same color"
fails: two runs that share the seeded-PRNG algorithm but carry different
string-hash functions (different `PYTHONHASHSEED` salts) give the species
"Rosa canina" different colors.  Within one process the mapping is
deterministic, but it is a function of the salted hash, not of the name
alone. -/
theorem C9_color_not_stable_across_runs :
    random_color_for_species
        { strHash := fun _ => 0, seededDraws := fun h => (h.toNat % 256, 0, 0) }
        "Rosa canina" ≠
      random_color_for_species
        { strHash := fun _ => 1, seededDraws := fun h => (h.toNat % 256, 0, 0) }
        "Rosa canina" := by
  decide

end Hedgerow
